import Mathlib

/-!
# Verification of the odo core client (`pkg/occlient/occlient.go`)

A shallow embedding of the three core components of the odo CLI client —
the condition watcher (`WaitAndGetDC`, `WaitAndGetPod`, `WaitAndGetSecret`,
`WaitForBuildToFinish`), the workload patch engine (`PatchCurrentDC`,
`copyVolumesAndVolumeMounts`, `removeTracesOfSupervisordFromDC`,
`UpdateDCToSupervisor`, `UpdateDCToGit`) and the file synchronization
transport (`CopyFile`, `isSingleFileTransfer`, `makeTar`, `recursiveTar`) —
together with theorems settling the specification claims about them.

Conventions of the embedding:
* Go slices become `List`, Go strings become `String`.
* The Go standard `path` package (purely lexical, slash-separated) is
  modelled by `splitRaw` / `comps` / `pClean` / `pBase` / `pDir` / `pJoin`
  below, matching the documented semantics of `path.Clean`, `path.Base`,
  `path.Dir` and `path.Join` (the Plan 9 lexical cleaning algorithm,
  expressed over the list of path components).
* The local filesystem touched by `os.Lstat` / `ioutil.ReadDir` /
  `os.Readlink` is modelled as one consistent in-memory tree (`FNode`);
  path resolution is literal component lookup from the root.
* Event streams returned by the Kubernetes `watch` API are modelled as a
  finite list of events plus a flag saying whether the channel closes
  after them (`WStream`); a wait that would receive from a still-open
  channel with no further events is a blocked execution and is reported
  by a distinguished `blocks`-style outcome.
-/

set_option autoImplicit false

namespace Odo

/-! ## The Go `path` package (lexical slash-separated paths) -/

/-- Helper of `splitRaw`: prepend a character to the first piece. -/
def consHead (c : Char) : List (List Char) → List (List Char)
  | [] => [[c]]
  | p :: ps => (c :: p) :: ps

/-- Split a character list on `/`, keeping empty pieces (the raw split
underlying the component view of a Go path). -/
def splitRaw : List Char → List (List Char)
  | [] => [[]]
  | c :: cs => if c = '/' then [] :: splitRaw cs else consHead c (splitRaw cs)

/-- The (nonempty) path components of a string, as character lists. -/
def comps (s : String) : List (List Char) :=
  (splitRaw s.data).filter (fun p => !p.isEmpty)

/-- A component that names a real directory entry: nonempty, free of the
separator, and not one of the special components `.` and `..`. -/
def PlainComp (p : List Char) : Prop :=
  p ≠ [] ∧ '/' ∉ p ∧ p ≠ ['.'] ∧ p ≠ ['.', '.']

instance (p : List Char) : Decidable (PlainComp p) := by
  unfold PlainComp; infer_instance

/-- A piece that can be re-split from a joined path: nonempty and free of
the separator (`..` is allowed here, unlike in `PlainComp`). -/
def NiceComp (p : List Char) : Prop := p ≠ [] ∧ '/' ∉ p

instance (p : List Char) : Decidable (NiceComp p) := by
  unfold NiceComp; infer_instance

/-- One step of the stack machine of `path.Clean`: drop `.`, let `..`
cancel the most recent ordinary component (dropped at the root of a
rooted path, kept on a relative path), push everything else.  The stack
is kept most-recent-first. -/
def cleanStep (abs : Bool) (stack : List (List Char)) (p : List Char) : List (List Char) :=
  if p = ['.'] then stack
  else if p = ['.', '.'] then
    match stack with
    | q :: qs => if q = ['.', '.'] then p :: q :: qs else qs
    | [] => if abs then [] else [['.', '.']]
  else p :: stack

/-- The components of `path.Clean`, in path order: fold the stack
machine over the components and read the stack back off. -/
def cleanComps (abs : Bool) (cs : List (List Char)) : List (List Char) :=
  (cs.foldl (cleanStep abs) []).reverse

/-- Join components with the canonical separator. -/
def joinComps : List (List Char) → List Char
  | [] => []
  | [p] => p
  | p :: q :: rest => p ++ '/' :: joinComps (q :: rest)

/-- Whether a character list spells a rooted path. -/
def isAbsData : List Char → Bool
  | c :: _ => c = '/'
  | [] => false

/-- Render cleaned components back to a path string (`/` for an empty
rooted result, `.` for an empty relative result). -/
def renderPath (abs : Bool) (cs : List (List Char)) : List Char :=
  if abs then '/' :: joinComps cs
  else if cs = [] then ['.'] else joinComps cs

/-- Model of Go `path.Clean`. -/
def pClean (s : String) : String :=
  ⟨renderPath (isAbsData s.data) (cleanComps (isAbsData s.data) (comps s))⟩

/-- Model of Go `path.Base`: the last component; `/` for an all-slash
path, `.` for the empty path. -/
def pBase (s : String) : String :=
  match (comps s).getLast? with
  | some p => ⟨p⟩
  | none => if s.data.contains '/' then "/" else "."

/-- Everything up to and including the last `/` of a character list
(empty when there is no slash), as in the `dir` half of `path.Split`. -/
def dropAfterLastSlash (cs : List Char) : List Char :=
  (cs.reverse.dropWhile (fun c => c ≠ '/')).reverse

/-- Model of Go `path.Dir`: `Clean` of everything up to the last `/`. -/
def pDir (s : String) : String :=
  pClean ⟨dropAfterLastSlash s.data⟩

/-- Model of the two-argument Go `path.Join`: empty elements are dropped
and the slash-joined rest is cleaned. -/
def pJoin (a b : String) : String :=
  if a = "" then (if b = "" then "" else pClean b)
  else if b = "" then pClean a
  else pClean (a ++ "/" ++ b)

/-! ## The local filesystem

`FNode` is one consistent in-memory file tree: regular files (odo only
reads their byte payload into the archive, modelled by a size), symbolic
links (`os.Lstat` does not follow them; `os.Readlink` yields the stored
target) and directories with named children.  `resolve` is literal
component-by-component lookup from a root node, the model of
`os.Lstat` / `os.Stat` on the paths the transport touches. -/

inductive FNode where
  | file (size : Nat)
  | symlink (target : String)
  | dir (children : List (String × FNode))

/-- Look a component up among named children. -/
def childLookup (p : List Char) : List (String × FNode) → Option FNode
  | [] => none
  | c :: rest => if c.1.data = p then some c.2 else childLookup p rest

/-- Resolve a component list against a tree. -/
def resolve : List (List Char) → FNode → Option FNode
  | [], n => some n
  | p :: ps, n =>
    match n with
    | .dir ch =>
      match childLookup p ch with
      | some c => resolve ps c
      | none => none
    | _ => none

/-- Model of `os.Lstat`: resolve the path's components from the root. -/
def lstat (fs : FNode) (path : String) : Option FNode :=
  resolve (comps path) fs

/-- Whether a tree node is a directory (`FileInfo.IsDir`). -/
def FNode.isDirB : FNode → Bool
  | .dir _ => true
  | _ => false

mutual
/-- Every child name in the tree satisfies `pred` (used for the validity
and backslash-freedom side conditions of the general theorems). -/
def FNode.namesAll (pred : List Char → Bool) : FNode → Bool
  | .file _ => true
  | .symlink _ => true
  | .dir ch => childrenNamesAll pred ch

def childrenNamesAll (pred : List Char → Bool) : List (String × FNode) → Bool
  | [] => true
  | c :: rest => pred c.1.data && FNode.namesAll pred c.2 && childrenNamesAll pred rest
end

/-- Names that can actually appear in a directory: plain components. -/
def validNameB (p : List Char) : Bool := decide (PlainComp p)

/-- A well-formed file tree: every directory-entry name is plain. -/
def FNode.validB (n : FNode) : Bool := n.namesAll validNameB

/-- Backslash-freedom of a name, as a component predicate. -/
def nbB (p : List Char) : Bool := decide ('\\' ∉ p)

/-! ## The file synchronization transport (`CopyFile` and helpers) -/

/-- One entry of the streamed tar archive: the written header name plus
the payload kind (regular file with its content size, directory, or
symbolic link storing its target text, exactly the three cases of
`recursiveTar`). -/
inductive TarEntry where
  | fileE (name : String) (size : Nat)
  | dirE (name : String)
  | linkE (name : String) (target : String)
  deriving DecidableEq

/-- The header name of an archive entry (`hdr.Name`). -/
def entryName : TarEntry → String
  | .fileE n _ => n
  | .dirE n => n
  | .linkE n _ => n

mutual
/-- The entries written by `recursiveTar` for one resolved node: a
regular file or symlink yields exactly one entry named `destFile`; an
empty directory yields one directory entry; a nonempty directory yields
the concatenated entries of its children, each under
`path.Join(destFile, name)`.  (The source re-runs `os.Lstat` on
`path.Join(srcBase, path.Join(srcFile, name))` for every child; in a
consistent tree that resolves to the child delivered by
`ioutil.ReadDir`, so the recursion is expressed directly on the node.) -/
def recursiveTarAux : FNode → String → List TarEntry
  | .file sz, d => [TarEntry.fileE d sz]
  | .symlink t, d => [TarEntry.linkE d t]
  | .dir [], d => [TarEntry.dirE d]
  | .dir (c :: cs), d => recursiveTarChildren (c :: cs) d

def recursiveTarChildren : List (String × FNode) → String → List TarEntry
  | [], _ => []
  | c :: cs, d => recursiveTarAux c.2 (pJoin d c.1) ++ recursiveTarChildren cs d
end

/-- Model of `recursiveTar(srcBase, srcFile, destBase, destFile, tw)`:
`os.Lstat(path.Join(srcBase, srcFile))` failing is the error path; a
resolved node produces its entries.  `destBase` is threaded by the source
but never used for entry names. -/
def recursiveTar (fs : FNode) (srcBase srcFile destBase destFile : String) :
    Except String (List TarEntry) :=
  match resolve (comps (pJoin srcBase srcFile)) fs with
  | none => Except.error ("lstat " ++ pJoin srcBase srcFile ++ ": no such file or directory")
  | some n =>
    let _ := destBase
    Except.ok (recursiveTarAux n destFile)

/-- Model of `checkFileExist` (an `os.Stat` probe). -/
def checkFileExist (fs : FNode) (fileName : String) : Bool :=
  (resolve (comps fileName) fs).isSome

/-- The `len(files) != 0` loop of `makeTar`: scan the changed-file list;
the first entry that exists triggers one recursive walk of the already
cleaned `srcPath`; if none exists, the loop falls through and `makeTar`
returns success with nothing written. -/
def makeTarLoop (fs : FNode) (srcPath destPath : String) :
    List String → Except String (List TarEntry)
  | [] => Except.ok []
  | f :: rest =>
    if checkFileExist fs f then
      recursiveTar fs (pDir srcPath) (pBase srcPath) (pDir destPath) (pBase destPath)
    else makeTarLoop fs srcPath destPath rest

/-- Model of `makeTar(srcPath, destPath, writer, files)`. -/
def makeTar (fs : FNode) (srcPath0 destPath0 : String) (files : List String) :
    Except String (List TarEntry) :=
  let srcPath := pClean srcPath0
  let destPath := pClean destPath0
  if files.isEmpty then
    recursiveTar fs (pDir srcPath) (pBase srcPath) (pDir destPath) (pBase destPath)
  else makeTarLoop fs srcPath destPath files

/-- Model of `isSingleFileTransfer`: true when the changed-file list has
exactly one entry, `os.Lstat` succeeds on it and it is not a directory. -/
def isSingleFileTransfer (fs : FNode) (copyFiles : List String) : Bool :=
  match copyFiles with
  | [f] =>
    match resolve (comps f) fs with
    | some st => !st.isDirB
    | none => false
  | _ => false

/-- The observable fate of the archive-producing goroutine of `CopyFile`:
either the full entry list is streamed into the pipe and the writer is
closed normally, or `makeTar` returned an error and the goroutine calls
`os.Exit(-1)`, killing the whole process (the error is logged, never
returned to `CopyFile`'s caller). -/
inductive ArchiveOutcome where
  | streamed (entries : List TarEntry)
  | processExit
  deriving DecidableEq

/-- Model of the archive-construction side of `CopyFile`: mode selection
through `isSingleFileTransfer`, then `makeTar` on either the single file
(empty `files`, destination `targetPath + "/" + path.Base(onlyFile)`) or
on `localPath` toward `path.Join(targetPath, filepath.Base(localPath))`
with the changed-file list.  (`filepath.Base` agrees with `path.Base` on
the slash-separated platform the model fixes.) -/
def copyFileArchive (fs : FNode) (localPath targetPath : String)
    (copyFiles : List String) : ArchiveOutcome :=
  let dest := pJoin targetPath (pBase localPath)
  let res :=
    if isSingleFileTransfer fs copyFiles then
      let onlyFile := copyFiles.headD ""
      makeTar fs onlyFile (targetPath ++ "/" ++ pBase onlyFile) []
    else makeTar fs localPath dest copyFiles
  match res with
  | Except.ok es => ArchiveOutcome.streamed es
  | Except.error _ => ArchiveOutcome.processExit

/-- The remote unpack command `CopyFile` execs in the container:
`tar xf - -C targetPath`, plus `--strip 1` in subtree mode only. -/
def copyFileCmdArr (fs : FNode) (targetPath : String) (copyFiles : List String) :
    List String :=
  let cmdArr := ["tar", "xf", "-", "-C", targetPath]
  if isSingleFileTransfer fs copyFiles then cmdArr else cmdArr ++ ["--strip", "1"]

/-! ## The condition watcher

The four wait functions consume a watch stream.  An event carries a
change type (never inspected by any of the four functions) and an object
whose Go type assertion to the expected resource type either succeeds
(`EvObj.is`) or fails (`EvObj.other`, e.g. a `*metav1.Status` carried by
an ERROR event).  A `WStream` is the list of events delivered before the
channel either closes (`closed = true`) or stays silently open forever
(`closed = false`).

For the two timeout-bounded waits the timer is modelled by a fuel
argument: `fuel` is the number of channel receives the timeout budget
still allows; when it reaches zero the `select` takes the timeout case. -/

/-- The change type of a watch event (`watch.Added` etc.). -/
inductive ChangeType where
  | added
  | modified
  | deleted
  | errEvent
  deriving DecidableEq

/-- Result of the Go type assertion on an event's object. -/
inductive EvObj (α : Type) where
  | is (a : α)
  | other
  deriving DecidableEq

/-- One event of a watch stream. -/
structure WEvent (α : Type) where
  etype : ChangeType
  obj : EvObj α
  deriving DecidableEq

/-- A watch stream: the delivered events, then either closure of the
channel or eternal silence. -/
structure WStream (α : Type) where
  events : List (WEvent α)
  closed : Bool
  deriving DecidableEq

/-- Build phases (`buildv1.BuildPhase`). -/
inductive BuildPhase where
  | newB
  | pending
  | running
  | complete
  | failed
  | cancelled
  | errorB
  deriving DecidableEq

/-- The slice of a `buildv1.Build` the wait inspects. -/
structure BuildRes where
  name : String
  phase : BuildPhase
  deriving DecidableEq

/-- Outcome of `WaitForBuildToFinish`: `success` is a nil error return
(both on `BuildPhaseComplete` and when the watch channel closes),
`phaseErr` the error returned on a failed/cancelled/error phase, and
`blocks` an execution stuck forever on a receive from a silent open
channel (the function has no timeout). -/
inductive BuildWaitOutcome where
  | success
  | phaseErr (phase : BuildPhase)
  | blocks
  deriving DecidableEq

/-- The receive loop of `WaitForBuildToFinish`: non-`Build` objects are
skipped, `complete` returns nil, failed/cancelled/error phases return an
error, channel closure breaks the loop into a nil return, and a silent
open channel blocks. -/
def waitForBuildToFinishLoop : List (WEvent BuildRes) → Bool → BuildWaitOutcome
  | [], closed => if closed then .success else .blocks
  | e :: rest, closed =>
    match e.obj with
    | .is b =>
      match b.phase with
      | .complete => .success
      | .failed => .phaseErr .failed
      | .cancelled => .phaseErr .cancelled
      | .errorB => .phaseErr .errorB
      | _ => waitForBuildToFinishLoop rest closed
    | .other => waitForBuildToFinishLoop rest closed

/-- Model of `WaitForBuildToFinish` over a given stream. -/
def waitForBuildToFinish (s : WStream BuildRes) : BuildWaitOutcome :=
  waitForBuildToFinishLoop s.events s.closed

/-! ### `WaitAndGetDC` -/

/-- Volume mount of a container (`corev1.VolumeMount`; only the name
takes part in the verified claims). -/
structure VolumeMount where
  name : String
  deriving DecidableEq

/-- Pod volume (`corev1.Volume`; only the name takes part in the
verified claims). -/
structure Volume where
  name : String
  deriving DecidableEq

/-- Container of the pod template (`corev1.Container`; ports, env and
resource limits are elided — no verified claim mentions them). -/
structure Container where
  name : String
  volumeMounts : List VolumeMount
  deriving DecidableEq

/-- The pod template spec of a deployment config: containers, init
containers and volumes. -/
structure PodSpecM where
  containers : List Container
  initContainers : List Container
  volumes : List Volume
  deriving DecidableEq

/-- A deployment config (`appsv1.DeploymentConfig`): name, annotations
and the pod template.  (`DeploymentConfigSpec.Template` is a pointer in
the OpenShift API; the model keeps the template by value and threads
every mutation explicitly.) -/
structure DeploymentConfigM where
  name : String
  annotations : List (String × String)
  template : PodSpecM
  deriving DecidableEq

/-- `e.Annotations[field]`: a missing key reads as `""` in Go. -/
def annotGet (d : DeploymentConfigM) (field : String) : String :=
  (d.annotations.lookup field).getD ""

/-- Outcome of `WaitAndGetDC`'s loop.  There is no stream-closure
outcome: on a closed channel the `case val, ok := <-w.ResultChan()`
branch receives `ok = false` immediately and its `break` only leaves the
`select`, so the loop spins re-selecting until the timeout case fires —
observationally the same timeout error as a silent open stream. -/
inductive DCWaitOutcome where
  | ok (d : DeploymentConfigM)
  | timeoutErr
  | openErr
  deriving DecidableEq

/-- The `select` loop of `WaitAndGetDC`: fuel counts the receives the
timeout budget allows; exhausted fuel or an exhausted event list ends in
the timeout error; a `DeploymentConfig`-typed event whose `field`
annotation equals `value` is returned. -/
def waitAndGetDCLoop (field value : String) :
    List (WEvent DeploymentConfigM) → Nat → DCWaitOutcome
  | _, 0 => .timeoutErr
  | [], _ + 1 => .timeoutErr
  | e :: rest, n + 1 =>
    match e.obj with
    | .is d => if annotGet d field = value then .ok d else waitAndGetDCLoop field value rest n
    | .other => waitAndGetDCLoop field value rest n

/-- A whole run of `WaitAndGetDC`, tracking resource release.  The
source registers `defer w.Stop()` *before* checking the error of
`Watch(...)`; when opening the subscription fails the client returns a
nil `watch.Interface`, so the deferred `Stop` is invoked on a nil
interface and the call panics instead of returning its wrapped error:
`openResult = none` yields `panicked = true` and no subscription was
ever released. -/
structure DCWaitRun where
  outcome : DCWaitOutcome
  stopCalled : Bool
  panicked : Bool
  deriving DecidableEq

/-- Model of `WaitAndGetDC(name, field, value, timeout)`: `openResult`
is the stream returned by `Watch` (`none` when opening failed). -/
def waitAndGetDC (openResult : Option (WStream DeploymentConfigM))
    (field value : String) (fuel : Nat) : DCWaitRun :=
  match openResult with
  | none => { outcome := .openErr, stopCalled := false, panicked := true }
  | some s =>
    { outcome := waitAndGetDCLoop field value s.events fuel
      stopCalled := true
      panicked := false }

/-! ### `WaitAndGetPod` -/

/-- Pod phases (`corev1.PodPhase`). -/
inductive PodPhase where
  | pending
  | running
  | succeeded
  | failed
  | unknown
  deriving DecidableEq

/-- The slice of a `corev1.Pod` the wait inspects. -/
structure PodRes where
  name : String
  phase : PodPhase
  deriving DecidableEq

/-- Outcome of `WaitAndGetPod`: the running pod, a failed/unknown-phase
error, the conversion error for a non-`Pod` object, the
watch-channel-closed error, or the timeout error. -/
inductive PodWaitOutcome where
  | ok (p : PodRes)
  | phaseErr (ph : PodPhase)
  | convertErr
  | streamClosedErr
  | timeoutErr
  deriving DecidableEq

/-- The event goroutine of `WaitAndGetPod` joined with the outer
`select` over `{podChannel, watchErrorChannel, time.After}`: fuel counts
the receives the timeout budget allows; a closed channel is reported on
the error channel (when the budget has not yet run out), a silent open
channel lets the timeout fire. -/
def waitAndGetPodLoop : List (WEvent PodRes) → Bool → Nat → PodWaitOutcome
  | _, _, 0 => .timeoutErr
  | [], closed, _ + 1 => if closed then .streamClosedErr else .timeoutErr
  | e :: rest, closed, n + 1 =>
    match e.obj with
    | .is p =>
      match p.phase with
      | .running => .ok p
      | .failed => .phaseErr .failed
      | .unknown => .phaseErr .unknown
      | _ => waitAndGetPodLoop rest closed n
    | .other => .convertErr

/-- Model of `WaitAndGetPod(selector)` over a given stream. -/
def waitAndGetPod (s : WStream PodRes) (fuel : Nat) : PodWaitOutcome :=
  waitAndGetPodLoop s.events s.closed fuel

/-! ### `WaitAndGetSecret` -/

/-- The slice of a `corev1.Secret` the wait inspects. -/
structure SecretRes where
  name : String
  deriving DecidableEq

/-- Outcome of `WaitAndGetSecret`: the first `Secret`-typed snapshot,
the generic error returned after the channel closes, or an execution
blocked forever on a silent open channel (the function has no timeout
and applies no predicate beyond the type assertion). -/
inductive SecretWaitOutcome where
  | ok (s : SecretRes)
  | unknownErr
  | blocks
  deriving DecidableEq

/-- The receive loop of `WaitAndGetSecret`. -/
def waitAndGetSecretLoop : List (WEvent SecretRes) → Bool → SecretWaitOutcome
  | [], closed => if closed then .unknownErr else .blocks
  | e :: rest, closed =>
    match e.obj with
    | .is s => .ok s
    | .other => waitAndGetSecretLoop rest closed

/-- Model of `WaitAndGetSecret(name, namespace)` over a given stream. -/
def waitAndGetSecret (s : WStream SecretRes) : SecretWaitOutcome :=
  waitAndGetSecretLoop s.events s.closed

/-! ### Event classification predicates used by the wait theorems -/

/-- A build event that terminates neither branch of the phase switch:
a non-`Build` object, or a phase outside
`{complete, failed, cancelled, error}`. -/
def buildEventNonTerminal (e : WEvent BuildRes) : Bool :=
  match e.obj with
  | .is b =>
    match b.phase with
    | .complete => false
    | .failed => false
    | .cancelled => false
    | .errorB => false
    | _ => true
  | .other => true

/-- A DC event that does not satisfy the annotation predicate of
`WaitAndGetDC` for `field`/`value`. -/
def dcEventNoMatch (field value : String) (e : WEvent DeploymentConfigM) : Bool :=
  match e.obj with
  | .is d => annotGet d field ≠ value
  | .other => true

/-- A pod event on which `WaitAndGetPod`'s goroutine keeps looping: a
`Pod`-typed object in a phase outside `{running, failed, unknown}`. -/
def podEventNonTerminal (e : WEvent PodRes) : Bool :=
  match e.obj with
  | .is p =>
    match p.phase with
    | .running => false
    | .failed => false
    | .unknown => false
    | _ => true
  | .other => false

/-- A secret event carrying a non-`Secret` object. -/
def secretEventIsOther (e : WEvent SecretRes) : Bool :=
  match e.obj with
  | .is _ => false
  | .other => true

/-! ## The workload patch engine -/

/-- The reserved supervisord scratch volume name (`supervisordVolumeName`). -/
def supervisordVolumeName : String := "odo-supervisord-shared-data"

/-- `getAppRootVolumeName`: the S2I data volume backing dev mode. -/
def getAppRootVolumeName (dcName : String) : String :=
  dcName ++ "-s2idata"

/-- Model of `findContainer`: a blank name is an error, otherwise the
first container with the given name (an error when there is none). -/
def findContainer (containers : List Container) (name : String) :
    Except String Container :=
  if name = "" then
    Except.error "Invalid parameter for findContainer, unable to find a blank container"
  else
    match containers.find? (fun c => c.name = name) with
    | some c => Except.ok c
    | none => Except.error "Unable to find container"

/-- The volume-mount loop of `copyVolumesAndVolumeMounts`.  The source
iterates the matching container's mounts with
`if volume.Name == supervisordVolumeName { continue } else { append };
break` — the `break` sits inside the mounts loop, so the loop appends
the *first* mount that is not the supervisord volume and stops. -/
def firstNonSupervisordMount : List VolumeMount → Option VolumeMount
  | [] => none
  | m :: rest =>
    if m.name = supervisordVolumeName then firstNonSupervisordMount rest else some m

/-- The volume loop of `copyVolumesAndVolumeMounts`: same shape, with
the `break` directly after the append, so only the first volume that is
not the supervisord volume is appended. -/
def firstNonSupervisordVolume : List Volume → Option Volume
  | [] => none
  | v :: rest =>
    if v.name = supervisordVolumeName then firstNonSupervisordVolume rest else some v

/-- Model of `copyVolumesAndVolumeMounts(dc, currentDC, matchingContainer)`:
every container of `dc` named like `matchingContainer` gains the first
non-supervisord mount of `matchingContainer` (the misplaced `break`
stops the mounts loop after one append), and `dc`'s volume list gains
the first non-supervisord volume of `currentDC` (the `break` in the
`else` branch stops the volume loop after one append).  All mutations
reach the caller through the shared `Spec.Template` pointer. -/
def copyVolumesAndVolumeMounts (dc currentDC : DeploymentConfigM)
    (matchingContainer : Container) : DeploymentConfigM :=
  let newContainers := dc.template.containers.map fun c =>
    if c.name = matchingContainer.name then
      { c with volumeMounts :=
          c.volumeMounts ++ (firstNonSupervisordMount matchingContainer.volumeMounts).toList }
    else c
  let newVolumes :=
    dc.template.volumes ++ (firstNonSupervisordVolume currentDC.template.volumes).toList
  { dc with template :=
      { dc.template with containers := newContainers, volumes := newVolumes } }

/-- Model of `removeVolumeFromDC`: drop the named volume, reporting
whether it was found.  (The source removes in place while ranging; the
claims only exercise it with at most one occurrence of the name, where
filtering is the same.) -/
def removeVolumeFromDC (vol : String) (dc : DeploymentConfigM) :
    Bool × DeploymentConfigM :=
  let found := dc.template.volumes.any (fun v => v.name = vol)
  (found,
    { dc with template :=
        { dc.template with volumes := dc.template.volumes.filter (fun v => v.name ≠ vol) } })

/-- Model of `removeVolumeMountFromDC`: drop the named mount from every
container, reporting whether any container had it. -/
def removeVolumeMountFromDC (vm : String) (dc : DeploymentConfigM) :
    Bool × DeploymentConfigM :=
  let found := dc.template.containers.any (fun c => c.volumeMounts.any (fun m => m.name = vm))
  (found,
    { dc with template :=
        { dc.template with containers := dc.template.containers.map fun c =>
            { c with volumeMounts := c.volumeMounts.filter (fun m => m.name ≠ vm) } } })

/-- Model of `removeTracesOfSupervisordFromDC`: remove the S2I data
volume (error when absent), then its mount (error when absent), then
every `copy-files-to-volume` init container. -/
def removeTracesOfSupervisordFromDC (dc : DeploymentConfigM) :
    Except String DeploymentConfigM :=
  let dcName := dc.name
  let r1 := removeVolumeFromDC (getAppRootVolumeName dcName) dc
  if ¬r1.1 then
    Except.error ("unable to find volume in dc with name: " ++ dcName)
  else
    let r2 := removeVolumeMountFromDC (getAppRootVolumeName dcName) r1.2
    if ¬r2.1 then
      Except.error ("unable to find volume mount in dc with name: " ++ dcName)
    else
      Except.ok
        { r2.2 with template :=
            { r2.2.template with initContainers :=
                r2.2.template.initContainers.filter (fun c => c.name ≠ "copy-files-to-volume") } }

/-- Result of `PatchCurrentDC` up to the cluster write: either the
operation failed before any update was submitted (fetch, container
lookup or pre-patch hook error), or the update was submitted with the
shown object (the subsequent `WaitAndGetDC` convergence wait is outside
this model). -/
inductive PatchOutcome where
  | errBeforeUpdate (msg : String)
  | updated (dc : DeploymentConfigM)

/-- Model of `PatchCurrentDC(name, dc, prePatchDCHandler)` given the
fetched current object: find the primary container of the *current*
config by name, copy volumes and mounts forward into `dc`, apply the
optional pre-patch hook, then replace the current spec, annotations and
labels with the desired ones and submit the update. -/
def patchCurrentDC (name : String) (currentDC dc : DeploymentConfigM)
    (prePatchDCHandler : Option (DeploymentConfigM → Except String DeploymentConfigM)) :
    PatchOutcome :=
  match findContainer currentDC.template.containers name with
  | Except.error e => .errBeforeUpdate e
  | Except.ok foundCurrentDCContainer =>
    let dc1 := copyVolumesAndVolumeMounts dc currentDC foundCurrentDCContainer
    match prePatchDCHandler with
    | some handler =>
      match handler dc1 with
      | Except.error e => .errBeforeUpdate e
      | Except.ok dc2 =>
        .updated { currentDC with annotations := dc2.annotations, template := dc2.template }
    | none =>
      .updated { currentDC with annotations := dc1.annotations, template := dc1.template }

/-- Modelled from the spec: `generateGitDeploymentConfig` is not under
`src/` (only its call sites are).  Per §4.2 the build-mode descriptor
carries a single primary container named after the component, built from
the given ports/env (elided — no verified claim mentions them) with no
volumes, no mounts and no init containers. -/
def generateGitDeploymentConfig (name : String) : DeploymentConfigM :=
  { name := name
    annotations := []
    template :=
      { containers := [{ name := name, volumeMounts := [] }]
        initContainers := []
        volumes := [] } }

/-- Modelled from the spec: `generateSupervisordDeploymentConfig` is not
under `src/`.  Per §4.2 the dev-mode base descriptor carries the single
primary container (image ports and merged env elided); the scratch
volume, its mount and the two init containers are appended afterwards by
the `addBootstrap*` helpers, matching the call order in
`UpdateDCToSupervisor`. -/
def generateSupervisordDeploymentConfig (name : String) : DeploymentConfigM :=
  { name := name
    annotations := []
    template :=
      { containers := [{ name := name, volumeMounts := [] }]
        initContainers := []
        volumes := [] } }

/-- Modelled from the spec: `addBootstrapVolumeCopyInitContainer` is not
under `src/`.  It appends the init container that copies bootstrap data
into the scratch volume; `removeTracesOfSupervisordFromDC` removes it by
the name `copy-files-to-volume`. -/
def addBootstrapVolumeCopyInitContainer (dc : DeploymentConfigM) (dcName : String) :
    DeploymentConfigM :=
  let _ := dcName
  { dc with template :=
      { dc.template with initContainers :=
          dc.template.initContainers ++ [{ name := "copy-files-to-volume", volumeMounts := [] }] } }

/-- Modelled from the spec: `addBootstrapSupervisordInitContainer` is
not under `src/`.  It appends the init container staging the supervisord
binary. -/
def addBootstrapSupervisordInitContainer (dc : DeploymentConfigM) (dcName : String) :
    DeploymentConfigM :=
  let _ := dcName
  { dc with template :=
      { dc.template with initContainers :=
          dc.template.initContainers ++ [{ name := "copy-supervisord", volumeMounts := [] }] } }

/-- Modelled from the spec: `addBootstrapVolume` is not under `src/`.
It appends the scratch volume named `getAppRootVolumeName(dcName)` (the
name `removeTracesOfSupervisordFromDC` later removes and the name of the
PVC provisioned after the patch). -/
def addBootstrapVolume (dc : DeploymentConfigM) (dcName : String) : DeploymentConfigM :=
  { dc with template :=
      { dc.template with volumes :=
          dc.template.volumes ++ [{ name := getAppRootVolumeName dcName }] } }

/-- Modelled from the spec: `addBootstrapVolumeMount` is not under
`src/`.  It appends the matching mount of the scratch volume to the
primary container. -/
def addBootstrapVolumeMount (dc : DeploymentConfigM) (dcName : String) : DeploymentConfigM :=
  { dc with template :=
      { dc.template with containers := dc.template.containers.map fun c =>
          if c.name = dcName then
            { c with volumeMounts :=
                c.volumeMounts ++ [{ name := getAppRootVolumeName dcName }] }
          else c } }

/-- Model of `UpdateDCToSupervisor(commonObjectMeta, componentImageType)`
restricted to the descriptor transformation (image-stream lookups and
env merging elided — they do not touch volumes, mounts or init
containers): generate the dev-mode descriptor, add the two bootstrap
init containers, the scratch volume and its mount, then patch with no
pre-patch hook.  The PVC provisioning after the patch is outside the
descriptor. -/
def updateDCToSupervisor (name : String) (currentDC : DeploymentConfigM) :
    Except String DeploymentConfigM :=
  let dc := generateSupervisordDeploymentConfig name
  let dc := addBootstrapVolumeCopyInitContainer dc name
  let dc := addBootstrapSupervisordInitContainer dc name
  let dc := addBootstrapVolume dc name
  let dc := addBootstrapVolumeMount dc name
  match patchCurrentDC name currentDC dc none with
  | .errBeforeUpdate e => Except.error e
  | .updated d => Except.ok d

/-- Model of `UpdateDCToGit(commonObjectMeta, imageName)` restricted to
the descriptor transformation: generate the build-mode descriptor from
the live container's ports/env (elided) and patch with the
`removeTracesOfSupervisordFromDC` hook.  The PVC deletion after the
patch is outside the descriptor. -/
def updateDCToGit (name : String) (currentDC : DeploymentConfigM) :
    Except String DeploymentConfigM :=
  let dc := generateGitDeploymentConfig name
  match patchCurrentDC name currentDC dc (some removeTracesOfSupervisordFromDC) with
  | .errBeforeUpdate e => Except.error e
  | .updated d => Except.ok d

/-! ### Structural predicates used by the patch-engine theorems -/

/-- The descriptor has no volume of the given name. -/
def dcLacksVolume (v : String) (d : DeploymentConfigM) : Bool :=
  d.template.volumes.all (fun x => x.name ≠ v)

/-- The container has no volume mount of the given name. -/
def containerLacksMount (v : String) (c : Container) : Bool :=
  c.volumeMounts.all (fun m => m.name ≠ v)

/-- No container of the descriptor has a volume mount of the given name. -/
def dcLacksMount (v : String) (d : DeploymentConfigM) : Bool :=
  d.template.containers.all (containerLacksMount v)

/-! ## Helper lemmas about the wait loops -/

theorem waitForBuildToFinishLoop_nonterminal (bevs : List (WEvent BuildRes)) (closed : Bool)
    (h : bevs.all buildEventNonTerminal = true) :
    waitForBuildToFinishLoop bevs closed = if closed then .success else .blocks := by
  induction bevs with
  | nil => cases closed <;> rfl
  | cons e rest ih =>
    obtain ⟨et, obj⟩ := e
    simp only [List.all_cons, Bool.and_eq_true] at h
    obtain ⟨he, hrest⟩ := h
    cases obj with
    | other => simpa [waitForBuildToFinishLoop] using ih hrest
    | is b =>
      cases hp : b.phase <;>
        simp_all [waitForBuildToFinishLoop, buildEventNonTerminal]

theorem waitAndGetDCLoop_noMatch (field value : String)
    (devs : List (WEvent DeploymentConfigM)) (fuel : Nat)
    (h : devs.all (dcEventNoMatch field value) = true) :
    waitAndGetDCLoop field value devs fuel = .timeoutErr := by
  induction devs generalizing fuel with
  | nil => cases fuel <;> rfl
  | cons e rest ih =>
    cases fuel with
    | zero => rfl
    | succ n =>
      obtain ⟨et, obj⟩ := e
      simp only [List.all_cons, Bool.and_eq_true] at h
      obtain ⟨he, hrest⟩ := h
      cases obj with
      | other => simpa [waitAndGetDCLoop] using ih n hrest
      | is d =>
        have hne : annotGet d field ≠ value := by
          simpa [dcEventNoMatch] using he
        simp [waitAndGetDCLoop, hne, ih n hrest]

theorem waitAndGetPodLoop_nonterminal_open (pevs : List (WEvent PodRes)) (fuel : Nat)
    (h : pevs.all podEventNonTerminal = true) :
    waitAndGetPodLoop pevs false fuel = .timeoutErr := by
  induction pevs generalizing fuel with
  | nil => cases fuel <;> rfl
  | cons e rest ih =>
    cases fuel with
    | zero => rfl
    | succ n =>
      obtain ⟨et, obj⟩ := e
      simp only [List.all_cons, Bool.and_eq_true] at h
      obtain ⟨he, hrest⟩ := h
      cases obj with
      | other => simp [podEventNonTerminal] at he
      | is p =>
        cases hp : p.phase <;>
          simp_all [waitAndGetPodLoop, podEventNonTerminal]

theorem waitAndGetSecretLoop_allOther (sevs : List (WEvent SecretRes)) (closed : Bool)
    (h : sevs.all secretEventIsOther = true) :
    waitAndGetSecretLoop sevs closed = if closed then .unknownErr else .blocks := by
  induction sevs with
  | nil => cases closed <;> rfl
  | cons e rest ih =>
    obtain ⟨et, obj⟩ := e
    simp only [List.all_cons, Bool.and_eq_true] at h
    obtain ⟨he, hrest⟩ := h
    cases obj with
    | other => simpa [waitAndGetSecretLoop] using ih hrest
    | is s => simp [secretEventIsOther] at he

/-! ## Claim theorems -/

/-- C1: refuted on the code (the code contradicts the doc comment of
`copyVolumesAndVolumeMounts`, which says it "copies volumes and volume
mounts", and its loop comment "Loop through all the volumes").  The
claim says the copy step carries *every* non-scratch volume and mount of
the current descriptor into the desired one.  On a current descriptor
whose primary container has the two non-scratch mounts `m1`, `m2` and
whose pod has the two non-scratch volumes `v1`, `v2`, the misplaced
`break` statements make `copyVolumesAndVolumeMounts` append only `m1`
and only `v1`: `m2` and `v2` are silently dropped. -/
theorem c1_copy_drops_second_volume_and_mount :
    (copyVolumesAndVolumeMounts
        ⟨"comp", [], ⟨[⟨"comp", []⟩], [], []⟩⟩
        ⟨"comp", [], ⟨[⟨"comp", [⟨"m1"⟩, ⟨"m2"⟩]⟩], [], [⟨"v1"⟩, ⟨"v2"⟩]⟩⟩
        ⟨"comp", [⟨"m1"⟩, ⟨"m2"⟩]⟩).template
      = ⟨[⟨"comp", [⟨"m1"⟩]⟩], [], [⟨"v1"⟩]⟩ ∧
    Volume.mk "v2" ∉
      (copyVolumesAndVolumeMounts
        ⟨"comp", [], ⟨[⟨"comp", []⟩], [], []⟩⟩
        ⟨"comp", [], ⟨[⟨"comp", [⟨"m1"⟩, ⟨"m2"⟩]⟩], [], [⟨"v1"⟩, ⟨"v2"⟩]⟩⟩
        ⟨"comp", [⟨"m1"⟩, ⟨"m2"⟩]⟩).template.volumes := by
  decide

/-- C2: refuted on the code (rooted in the same misplaced `break` slip
as C1, against the spec's explicit testable property §8).  A build-mode
descriptor with one user volume `data` mounted in the primary container
is switched to dev mode and back to build mode; the round trip ends with
*no* volumes, no mounts and no init containers, so the volume list is
not set-equal to the pre-dev-mode list `[data]`.  (The descriptor
generators absent from `src/` are spec-modelled.) -/
theorem c2_roundtrip_drops_user_volume :
    (updateDCToSupervisor "comp"
        ⟨"comp", [], ⟨[⟨"comp", [⟨"data-mount"⟩]⟩], [], [⟨"data"⟩]⟩⟩).bind
      (updateDCToGit "comp")
      = Except.ok (⟨"comp", [], ⟨[⟨"comp", []⟩], [], []⟩⟩ : DeploymentConfigM) := by
  rfl

/-- C3 (counterexample): the claim says a wait whose stream closes
before the success predicate holds fails with a `WatchTerminated`-style
error and is never reported as success.  `WaitForBuildToFinish` on a
stream that delivers one running-phase event and then closes breaks out
of its receive loop and returns nil: plain success. -/
theorem c3_build_wait_reports_success_on_closed_stream :
    waitForBuildToFinish ⟨[⟨.modified, .is ⟨"bld", .running⟩⟩], true⟩ = .success := by
  decide

/-- C3 (amended): when the stream closes before the success predicate is
satisfied, `WaitForBuildToFinish` returns success (its channel-closed
`break` falls through to `return nil`) and `WaitAndGetDC` — whose
`break` on a closed channel only leaves the `select`, re-entering the
loop until the timer fires — fails with the `Timeout` error; neither
wait produces a stream error distinct from `Timeout`, and error events
carrying a non-resource object are skipped. -/
theorem c3_amended_stream_closure_behavior
    (bevs : List (WEvent BuildRes)) (devs : List (WEvent DeploymentConfigM))
    (field value : String) (fuel : Nat)
    (hb : bevs.all buildEventNonTerminal = true)
    (hd : devs.all (dcEventNoMatch field value) = true) :
    waitForBuildToFinish ⟨bevs, true⟩ = .success ∧
    (waitAndGetDC (some ⟨devs, true⟩) field value fuel).outcome = .timeoutErr := by
  refine ⟨?_, ?_⟩
  · simpa [waitForBuildToFinish] using waitForBuildToFinishLoop_nonterminal bevs true hb
  · simpa [waitAndGetDC] using waitAndGetDCLoop_noMatch field value devs fuel hd

theorem c3_amended_witness :
    ([⟨.errEvent, .other⟩] : List (WEvent BuildRes)).all buildEventNonTerminal = true ∧
    ([⟨.modified, .is ⟨"dc", [("k", "old")], ⟨[], [], []⟩⟩⟩] :
        List (WEvent DeploymentConfigM)).all (dcEventNoMatch "k" "new") = true ∧
    (waitForBuildToFinish ⟨[⟨.errEvent, .other⟩], true⟩ = .success ∧
      (waitAndGetDC (some ⟨[⟨.modified, .is ⟨"dc", [("k", "old")], ⟨[], [], []⟩⟩⟩], true⟩)
          "k" "new" 7).outcome = .timeoutErr) :=
  ⟨by decide, by decide,
    c3_amended_stream_closure_behavior
      [⟨.errEvent, .other⟩]
      [⟨.modified, .is ⟨"dc", [("k", "old")], ⟨[], [], []⟩⟩⟩]
      "k" "new" 7 (by decide) (by decide)⟩

/-- C4 (counterexample): the claim says every blocking wait — including
`WaitAndGetSecret` and `WaitForBuildToFinish` — returns a `Timeout`
error when no terminating event arrives on a still-open stream.
Neither function has any timer: on a silent open stream both block
forever on the channel receive (the distinguished `blocks` outcome;
their outcome types have no timeout case at all). -/
theorem c4_secret_and_build_waits_block_forever :
    waitAndGetSecret ⟨[], false⟩ = .blocks ∧
    waitForBuildToFinish ⟨[], false⟩ = .blocks := by
  decide

/-- C4 (amended): only `WaitAndGetDC` and `WaitAndGetPod` are bounded by
a timeout (both return their `Timeout` error when no terminating event
arrives within the budget); `WaitAndGetSecret` and `WaitForBuildToFinish`
have no timeout and block indefinitely on a still-open silent stream. -/
theorem c4_amended_timeout_bounds
    (devs : List (WEvent DeploymentConfigM)) (pevs : List (WEvent PodRes))
    (sevs : List (WEvent SecretRes)) (bevs : List (WEvent BuildRes))
    (field value : String) (fuel : Nat)
    (hd : devs.all (dcEventNoMatch field value) = true)
    (hp : pevs.all podEventNonTerminal = true)
    (hs : sevs.all secretEventIsOther = true)
    (hb : bevs.all buildEventNonTerminal = true) :
    (waitAndGetDC (some ⟨devs, false⟩) field value fuel).outcome = .timeoutErr ∧
    waitAndGetPod ⟨pevs, false⟩ fuel = .timeoutErr ∧
    waitAndGetSecret ⟨sevs, false⟩ = .blocks ∧
    waitForBuildToFinish ⟨bevs, false⟩ = .blocks := by
  refine ⟨?_, ?_, ?_, ?_⟩
  · simpa [waitAndGetDC] using waitAndGetDCLoop_noMatch field value devs fuel hd
  · simpa [waitAndGetPod] using waitAndGetPodLoop_nonterminal_open pevs fuel hp
  · simpa [waitAndGetSecret] using waitAndGetSecretLoop_allOther sevs false hs
  · simpa [waitForBuildToFinish] using waitForBuildToFinishLoop_nonterminal bevs false hb

theorem c4_amended_witness :
    ([⟨.added, .is ⟨"dc", [], ⟨[], [], []⟩⟩⟩] :
        List (WEvent DeploymentConfigM)).all (dcEventNoMatch "k" "new") = true ∧
    ([⟨.added, .is ⟨"pod", .pending⟩⟩] : List (WEvent PodRes)).all podEventNonTerminal = true ∧
    ([] : List (WEvent SecretRes)).all secretEventIsOther = true ∧
    ([⟨.added, .is ⟨"bld", .pending⟩⟩] : List (WEvent BuildRes)).all buildEventNonTerminal = true ∧
    ((waitAndGetDC (some ⟨[⟨.added, .is ⟨"dc", [], ⟨[], [], []⟩⟩⟩], false⟩) "k" "new" 4).outcome
        = .timeoutErr ∧
      waitAndGetPod ⟨[⟨.added, .is ⟨"pod", .pending⟩⟩], false⟩ 4 = .timeoutErr ∧
      waitAndGetSecret ⟨[], false⟩ = .blocks ∧
      waitForBuildToFinish ⟨[⟨.added, .is ⟨"bld", .pending⟩⟩], false⟩ = .blocks) :=
  ⟨by decide, by decide, by decide, by decide,
    c4_amended_timeout_bounds
      [⟨.added, .is ⟨"dc", [], ⟨[], [], []⟩⟩⟩]
      [⟨.added, .is ⟨"pod", .pending⟩⟩] [] [⟨.added, .is ⟨"bld", .pending⟩⟩]
      "k" "new" 4 (by decide) (by decide) (by decide) (by decide)⟩

/-- C7: refuted on the code; the sibling waits all check the watch-open
error before registering the deferred `Stop`, and the spec says the
subscription is always released with a normal return, but `WaitAndGetDC`
registers `defer w.Stop()` *before* its error check.  When opening the
subscription fails the watch handle is nil, so the deferred `Stop` on
the nil interface panics during the return: the call neither releases a
subscription nor returns normally. -/
theorem c7_dc_wait_panics_when_open_fails :
    waitAndGetDC none "app.kubernetes.io/component-source-type" "git" 5
      = ⟨.openErr, false, true⟩ := by
  decide

/-- C10: `WaitAndGetSecret` resolves on the first `Secret`-typed event
of any change type (including DELETED) with no further predicate, and a
stream that closes before any `Secret`-typed event yields its generic
error, not a nil success. -/
theorem c10_secret_wait_first_event (ct : ChangeType) (sec : SecretRes)
    (rest sevs : List (WEvent SecretRes))
    (h : sevs.all secretEventIsOther = true) :
    waitAndGetSecret ⟨⟨ct, .is sec⟩ :: rest, true⟩ = .ok sec ∧
    waitAndGetSecret ⟨sevs, true⟩ = .unknownErr := by
  refine ⟨rfl, ?_⟩
  simpa [waitAndGetSecret] using waitAndGetSecretLoop_allOther sevs true h

theorem c10_witness :
    ([⟨.errEvent, .other⟩] : List (WEvent SecretRes)).all secretEventIsOther = true ∧
    (waitAndGetSecret ⟨⟨.deleted, .is ⟨"mysecret"⟩⟩ :: [], true⟩ = .ok ⟨"mysecret"⟩ ∧
      waitAndGetSecret ⟨[⟨.errEvent, .other⟩], true⟩ = .unknownErr) :=
  ⟨by decide,
    c10_secret_wait_first_event .deleted ⟨"mysecret"⟩ [] [⟨.errEvent, .other⟩] (by decide)⟩

/-! ### C5: error surfacing of the archive build -/

theorem makeTarLoop_all_missing (fs : FNode) (srcPath destPath : String)
    (files : List String) (h : files.all (fun f => !checkFileExist fs f) = true) :
    makeTarLoop fs srcPath destPath files = .ok [] := by
  induction files with
  | nil => rfl
  | cons f rest ih =>
    simp only [List.all_cons, Bool.and_eq_true] at h
    obtain ⟨hf, hrest⟩ := h
    have : checkFileExist fs f = false := by simpa using hf
    simp [makeTarLoop, this, ih hrest]

theorem isSingleFileTransfer_eq_false_of_missing (fs : FNode) (files : List String)
    (h : files.all (fun f => !checkFileExist fs f) = true) :
    isSingleFileTransfer fs files = false := by
  match files with
  | [] => rfl
  | [f] =>
    simp only [List.all_cons, List.all_nil, Bool.and_true] at h
    have : checkFileExist fs f = false := by simpa using h
    have hres : resolve (comps f) fs = none := by
      by_cases hr : (resolve (comps f) fs).isSome
      · rw [checkFileExist] at this; rw [this] at hr; cases hr
      · exact Option.not_isSome_iff_eq_none.mp hr
    simp [isSingleFileTransfer, hres]
  | f :: g :: rest => rfl

/-- C5 (counterexample): the claim says a changed-file list none of
whose entries exists at archive-build time is surfaced to the caller as
a `Malformed`-style error, never by completing with an empty archive.
With a concrete tree lacking `/app/missing.txt`, the `checkFileExist`
loop of `makeTar` falls through and returns nil: the goroutine streams
an empty archive and closes the pipe as a normal completion, and
`CopyFile`'s error return never sees the missing file. -/
theorem c5_missing_changed_files_yield_empty_archive_success :
    copyFileArchive (.dir [("app", .dir [("main.go", .file 10)])])
        "/app" "/target" ["/app/missing.txt"]
      = .streamed [] := by
  decide

/-- C5 (amended): a changed-file list none of whose entries exists is
not surfaced at all — the archive build completes successfully with an
empty archive.  (Failures `makeTar` does report are also never returned
by `CopyFile`: the goroutine logs them and calls `os.Exit(-1)`, the
`processExit` outcome of the model.) -/
theorem c5_amended_missing_files_not_an_error (fs : FNode)
    (localPath targetPath : String) (files : List String) (hne : files ≠ [])
    (h : files.all (fun f => !checkFileExist fs f) = true) :
    copyFileArchive fs localPath targetPath files = .streamed [] := by
  have hsingle := isSingleFileTransfer_eq_false_of_missing fs files h
  match files with
  | [] => exact absurd rfl hne
  | f :: rest =>
    rw [copyFileArchive]
    simp only [hsingle, if_false, Bool.false_eq_true]
    rw [makeTar]
    simp only [List.isEmpty_cons, Bool.false_eq_true, if_false]
    rw [makeTarLoop_all_missing fs _ _ _ h]

theorem c5_amended_witness :
    (["/app/missing.txt"] |>.all
        (fun f => !checkFileExist (.dir [("app", .dir [("main.go", .file 10)])]) f)) = true ∧
    copyFileArchive (.dir [("app", .dir [("main.go", .file 10)])])
        "/app" "/target" ["/app/missing.txt"] = .streamed [] :=
  ⟨by decide,
    c5_amended_missing_files_not_an_error (.dir [("app", .dir [("main.go", .file 10)])])
      "/app" "/target" ["/app/missing.txt"] (by decide) (by decide)⟩

/-! ### C6: missing scratch volume or mount fails the revert before any
update -/

theorem firstNonSupervisordVolume_mem (vs : List Volume) (v : Volume)
    (h : firstNonSupervisordVolume vs = some v) : v ∈ vs := by
  induction vs with
  | nil => cases h
  | cons x rest ih =>
    rw [firstNonSupervisordVolume] at h
    by_cases hx : x.name = supervisordVolumeName
    · simp only [hx, if_pos rfl] at h
      exact List.mem_cons_of_mem x (ih h)
    · rw [if_neg hx, Option.some_inj] at h
      subst h
      exact List.mem_cons_self x rest

theorem firstNonSupervisordMount_mem (ms : List VolumeMount) (m : VolumeMount)
    (h : firstNonSupervisordMount ms = some m) : m ∈ ms := by
  induction ms with
  | nil => cases h
  | cons x rest ih =>
    rw [firstNonSupervisordMount] at h
    by_cases hx : x.name = supervisordVolumeName
    · simp only [hx, if_pos rfl] at h
      exact List.mem_cons_of_mem x (ih h)
    · rw [if_neg hx, Option.some_inj] at h
      subst h
      exact List.mem_cons_self x rest

theorem patchCurrentDC_hook_error (name : String) (currentDC dc : DeploymentConfigM)
    (mc : Container) (hook : DeploymentConfigM → Except String DeploymentConfigM)
    (msg : String)
    (hfind : findContainer currentDC.template.containers name = .ok mc)
    (hhook : hook (copyVolumesAndVolumeMounts dc currentDC mc) = .error msg) :
    patchCurrentDC name currentDC dc (some hook) = .errBeforeUpdate msg := by
  have hstep : patchCurrentDC name currentDC dc (some hook) =
      match hook (copyVolumesAndVolumeMounts dc currentDC mc) with
      | .error e => .errBeforeUpdate e
      | .ok dc2 =>
        .updated { currentDC with annotations := dc2.annotations, template := dc2.template } := by
    rw [patchCurrentDC, hfind]
  rw [hstep, hhook]

theorem removeTraces_volume_missing (dc1 : DeploymentConfigM)
    (h : (removeVolumeFromDC (getAppRootVolumeName dc1.name) dc1).1 = false) :
    removeTracesOfSupervisordFromDC dc1
      = .error ("unable to find volume in dc with name: " ++ dc1.name) := by
  simp [removeTracesOfSupervisordFromDC, h]

theorem removeTraces_mount_missing (dc1 : DeploymentConfigM)
    (hvol : (removeVolumeFromDC (getAppRootVolumeName dc1.name) dc1).1 = true)
    (hm : (removeVolumeMountFromDC (getAppRootVolumeName dc1.name)
        (removeVolumeFromDC (getAppRootVolumeName dc1.name) dc1).2).1 = false) :
    removeTracesOfSupervisordFromDC dc1
      = .error ("unable to find volume mount in dc with name: " ++ dc1.name) := by
  simp [removeTracesOfSupervisordFromDC, hvol, hm]

/-- C6: if the revert target (after the forward copy) lacks the S2I
scratch volume, or its primary container and every target container lack
the scratch mount, then `PatchCurrentDC` run with the
`removeTracesOfSupervisordFromDC` pre-patch hook fails before any update
is submitted to the cluster. -/
theorem c6_missing_scratch_fails_before_update (name : String)
    (currentDC dc : DeploymentConfigM) (mc : Container)
    (hfind : findContainer currentDC.template.containers name = .ok mc)
    (hcase :
      (dcLacksVolume (getAppRootVolumeName dc.name) currentDC = true ∧
        dcLacksVolume (getAppRootVolumeName dc.name) dc = true) ∨
      (containerLacksMount (getAppRootVolumeName dc.name) mc = true ∧
        dcLacksMount (getAppRootVolumeName dc.name) dc = true)) :
    ∃ msg, patchCurrentDC name currentDC dc (some removeTracesOfSupervisordFromDC)
      = .errBeforeUpdate msg := by
  set v := getAppRootVolumeName dc.name with hv
  set dc1 := copyVolumesAndVolumeMounts dc currentDC mc with hdc1
  have hname : dc1.name = dc.name := rfl
  have hvols : dc1.template.volumes
      = dc.template.volumes ++ (firstNonSupervisordVolume currentDC.template.volumes).toList :=
    rfl
  have hconts : dc1.template.containers
      = dc.template.containers.map (fun c =>
          if c.name = mc.name then
            { c with volumeMounts :=
                c.volumeMounts ++ (firstNonSupervisordMount mc.volumeMounts).toList }
          else c) :=
    rfl
  rcases hcase with ⟨hcur, hdc⟩ | ⟨hmc, hdc⟩
  · -- the scratch volume is absent from the copied target
    have hall : ∀ z ∈ dc1.template.volumes, z.name ≠ v := by
      intro z hz
      rw [hvols, List.mem_append] at hz
      rcases hz with hz | hz
      · rw [dcLacksVolume, List.all_eq_true] at hdc
        simpa using hdc z hz
      · rcases hopt : firstNonSupervisordVolume currentDC.template.volumes with _ | y
        · rw [hopt] at hz; cases hz
        · rw [hopt] at hz
          rw [Option.toList_some, List.mem_singleton] at hz
          subst hz
          rw [dcLacksVolume, List.all_eq_true] at hcur
          simpa using hcur z (firstNonSupervisordVolume_mem _ _ hopt)
    have hnotfound : (removeVolumeFromDC v dc1).1 = false := by
      show dc1.template.volumes.any (fun x => x.name = v) = false
      rw [List.any_eq_false]
      intro x hx
      simpa using hall x hx
    refine ⟨"unable to find volume in dc with name: " ++ dc.name, ?_⟩
    refine patchCurrentDC_hook_error name currentDC dc mc _ _ hfind ?_
    rw [← hdc1]
    have := removeTraces_volume_missing dc1 (by rw [hname, ← hv]; exact hnotfound)
    rw [this, hname]
  · -- no container of the copied target carries the scratch mount
    have hmounts : ∀ c ∈ dc1.template.containers, ∀ m ∈ c.volumeMounts, m.name ≠ v := by
      intro c hc m hm
      rw [hconts, List.mem_map] at hc
      obtain ⟨c0, hc0, rfl⟩ := hc
      rw [dcLacksMount, List.all_eq_true] at hdc
      have hc0lacks := hdc c0 hc0
      rw [containerLacksMount, List.all_eq_true] at hc0lacks
      by_cases hcn : c0.name = mc.name
      · rw [if_pos hcn] at hm
        simp only [List.mem_append] at hm
        rcases hm with hm | hm
        · simpa using hc0lacks m hm
        · rcases hopt : firstNonSupervisordMount mc.volumeMounts with _ | y
          · rw [hopt] at hm; cases hm
          · rw [hopt] at hm
            rw [Option.toList_some, List.mem_singleton] at hm
            subst hm
            rw [containerLacksMount, List.all_eq_true] at hmc
            simpa using hmc m (firstNonSupervisordMount_mem _ _ hopt)
      · rw [if_neg hcn] at hm
        simpa using hc0lacks m hm
    have hconts2 : (removeVolumeFromDC v dc1).2.template.containers
        = dc1.template.containers := rfl
    have hnotfound2 : (removeVolumeMountFromDC v (removeVolumeFromDC v dc1).2).1 = false := by
      show (removeVolumeFromDC v dc1).2.template.containers.any
          (fun c => c.volumeMounts.any (fun m => m.name = v)) = false
      rw [hconts2, List.any_eq_false]
      intro c hc
      simp only [Bool.not_eq_true, List.any_eq_false]
      intro m hm
      simpa using hmounts c hc m hm
    cases hfound : (removeVolumeFromDC v dc1).1 with
    | false =>
      refine ⟨"unable to find volume in dc with name: " ++ dc.name, ?_⟩
      refine patchCurrentDC_hook_error name currentDC dc mc _ _ hfind ?_
      rw [← hdc1]
      have := removeTraces_volume_missing dc1 (by rw [hname, ← hv]; exact hfound)
      rw [this, hname]
    | true =>
      refine ⟨"unable to find volume mount in dc with name: " ++ dc.name, ?_⟩
      refine patchCurrentDC_hook_error name currentDC dc mc _ _ hfind ?_
      rw [← hdc1]
      have := removeTraces_mount_missing dc1
        (by rw [hname, ← hv]; exact hfound)
        (by rw [hname, ← hv]; exact hnotfound2)
      rw [this, hname]

theorem c6_witness :
    findContainer
        (DeploymentConfigM.mk "comp" []
          ⟨[⟨"comp", [⟨"other-mount"⟩]⟩], [], [⟨"other-vol"⟩]⟩).template.containers
        "comp" = .ok ⟨"comp", [⟨"other-mount"⟩]⟩ ∧
    (∃ msg, patchCurrentDC "comp"
        (DeploymentConfigM.mk "comp" []
          ⟨[⟨"comp", [⟨"other-mount"⟩]⟩], [], [⟨"other-vol"⟩]⟩)
        (generateGitDeploymentConfig "comp")
        (some removeTracesOfSupervisordFromDC) = .errBeforeUpdate msg) :=
  ⟨rfl,
    c6_missing_scratch_fails_before_update "comp"
      (DeploymentConfigM.mk "comp" []
        ⟨[⟨"comp", [⟨"other-mount"⟩]⟩], [], [⟨"other-vol"⟩]⟩)
      (generateGitDeploymentConfig "comp") ⟨"comp", [⟨"other-mount"⟩]⟩
      rfl (Or.inl ⟨by decide, by decide⟩)⟩


/-! ## Lemmas about the lexical path model -/

theorem splitRaw_ne_nil (cs : List Char) : splitRaw cs ≠ [] := by
  induction cs with
  | nil => simp [splitRaw]
  | cons c rest ih =>
    rw [splitRaw]
    by_cases hc : c = '/'
    · simp [hc]
    · rw [if_neg hc]
      cases h : splitRaw rest with
      | nil => exact absurd h ih
      | cons p ps => simp [consHead]

theorem consHead_append (c : Char) (A B : List (List Char)) (h : A ≠ []) :
    consHead c (A ++ B) = consHead c A ++ B := by
  cases A with
  | nil => exact absurd rfl h
  | cons p ps => simp [consHead]

theorem splitRaw_append_slash (xs ys : List Char) :
    splitRaw (xs ++ '/' :: ys) = splitRaw xs ++ splitRaw ys := by
  induction xs with
  | nil => simp [splitRaw]
  | cons c rest ih =>
    rw [List.cons_append, splitRaw, splitRaw]
    by_cases hc : c = '/'
    · rw [if_pos hc, if_pos hc, ih, List.cons_append]
    · rw [if_neg hc, if_neg hc, ih, consHead_append c _ _ (splitRaw_ne_nil rest)]

theorem splitRaw_no_slash (cs : List Char) (h : '/' ∉ cs) : splitRaw cs = [cs] := by
  induction cs with
  | nil => rfl
  | cons c rest ih =>
    rw [splitRaw, if_neg (by intro hc; exact h (hc ▸ List.mem_cons_self c rest)),
      ih (fun hm => h (List.mem_cons_of_mem c hm))]
    rfl

theorem mem_consHead (c : Char) (L : List (List Char)) (p : List Char)
    (hp : p ∈ consHead c L) :
    (∃ q qs, L = q :: qs ∧ (p = c :: q ∨ p ∈ qs)) ∨ (L = [] ∧ p = [c]) := by
  cases L with
  | nil => right; exact ⟨rfl, by simpa [consHead] using hp⟩
  | cons q qs => left; exact ⟨q, qs, rfl, by simpa [consHead] using hp⟩

theorem mem_splitRaw_no_slash (cs p : List Char) (hp : p ∈ splitRaw cs) : '/' ∉ p := by
  induction cs generalizing p with
  | nil =>
    rw [splitRaw, List.mem_singleton] at hp
    subst hp; simp
  | cons c rest ih =>
    rw [splitRaw] at hp
    by_cases hc : c = '/'
    · rw [if_pos hc, List.mem_cons] at hp
      rcases hp with rfl | hp
      · simp
      · exact ih p hp
    · rw [if_neg hc] at hp
      rcases mem_consHead c _ p hp with ⟨q, qs, hL, hpq | hpqs⟩ | ⟨hL, rfl⟩
      · subst hpq
        intro hmem
        rcases List.mem_cons.mp hmem with h1 | h1
        · exact hc h1.symm
        · exact ih q (hL ▸ List.mem_cons_self q qs) h1
      · exact ih p (hL ▸ List.mem_cons_of_mem q hpqs)
      · intro hmem
        rw [List.mem_singleton] at hmem
        exact hc hmem.symm

theorem mem_splitRaw_sub (cs p : List Char) (hp : p ∈ splitRaw cs) :
    ∀ a ∈ p, a ∈ cs := by
  induction cs generalizing p with
  | nil =>
    rw [splitRaw, List.mem_singleton] at hp
    subst hp; intro a ha; cases ha
  | cons c rest ih =>
    intro a ha
    rw [splitRaw] at hp
    by_cases hc : c = '/'
    · rw [if_pos hc, List.mem_cons] at hp
      rcases hp with rfl | hp
      · cases ha
      · exact List.mem_cons_of_mem c (ih p hp a ha)
    · rw [if_neg hc] at hp
      rcases mem_consHead c _ p hp with ⟨q, qs, hL, hpq | hpqs⟩ | ⟨hL, rfl⟩
      · subst hpq
        rcases List.mem_cons.mp ha with rfl | ha
        · exact List.mem_cons_self a rest
        · exact List.mem_cons_of_mem c (ih q (hL ▸ List.mem_cons_self q qs) a ha)
      · exact List.mem_cons_of_mem c (ih p (hL ▸ List.mem_cons_of_mem q hpqs) a ha)
      · rw [List.mem_singleton] at ha
        subst ha
        exact List.mem_cons_self a rest

theorem comps_mk (l : List Char) :
    comps ⟨l⟩ = (splitRaw l).filter (fun p => !p.isEmpty) := rfl

theorem mem_comps_sub (s : String) (p : List Char) (hp : p ∈ comps s) :
    ∀ a ∈ p, a ∈ s.data := by
  rw [comps, List.mem_filter] at hp
  exact mem_splitRaw_sub s.data p hp.1

theorem mem_comps_ne_nil (s : String) (p : List Char) (hp : p ∈ comps s) : p ≠ [] := by
  rw [comps, List.mem_filter] at hp
  simpa using hp.2

theorem mem_comps_no_slash (s : String) (p : List Char) (hp : p ∈ comps s) : '/' ∉ p := by
  rw [comps, List.mem_filter] at hp
  exact mem_splitRaw_no_slash s.data p hp.1

theorem mem_comps_nice (s : String) (p : List Char) (hp : p ∈ comps s) : NiceComp p :=
  ⟨mem_comps_ne_nil s p hp, mem_comps_no_slash s p hp⟩

theorem comps_append_slash (a b : String) : comps (a ++ "/" ++ b) = comps a ++ comps b := by
  rw [comps, String.data_append, String.data_append]
  have hslash : ("/" : String).data = ['/'] := rfl
  rw [hslash, List.append_assoc, List.singleton_append, splitRaw_append_slash,
    List.filter_append]
  rfl

theorem comps_singleton (b : List Char) (hb : NiceComp b) : comps ⟨b⟩ = [b] := by
  rw [comps_mk, splitRaw_no_slash b hb.2]
  have hempty : b.isEmpty = false := by
    cases b with
    | nil => exact absurd rfl hb.1
    | cons x xs => rfl
  simp [List.filter, hempty]


theorem cleanStep_plain (abs : Bool) (st : List (List Char)) (p : List Char)
    (hp : PlainComp p) : cleanStep abs st p = p :: st := by
  rw [cleanStep.eq_def, if_neg hp.2.2.1, if_neg hp.2.2.2]

theorem foldl_cleanStep_all_plain (abs : Bool) (cs : List (List Char))
    (h : ∀ p ∈ cs, PlainComp p) :
    ∀ st, cs.foldl (cleanStep abs) st = cs.reverse ++ st := by
  induction cs with
  | nil => intro st; rfl
  | cons p ps ih =>
    intro st
    rw [List.foldl_cons, cleanStep_plain abs st p (h p (List.mem_cons_self p ps)),
      ih (fun q hq => h q (List.mem_cons_of_mem p hq)) (p :: st)]
    simp

theorem cleanComps_all_plain (abs : Bool) (cs : List (List Char))
    (h : ∀ p ∈ cs, PlainComp p) : cleanComps abs cs = cs := by
  rw [cleanComps, foldl_cleanStep_all_plain abs cs h []]
  simp

theorem cleanComps_concat_plain (abs : Bool) (cs : List (List Char)) (b : List Char)
    (hb : PlainComp b) : cleanComps abs (cs ++ [b]) = cleanComps abs cs ++ [b] := by
  rw [cleanComps, cleanComps, List.foldl_concat, cleanStep_plain abs _ b hb]
  simp

theorem mem_cleanStep (abs : Bool) (st : List (List Char)) (p q : List Char)
    (hq : q ∈ cleanStep abs st p) : q ∈ st ∨ q = p ∨ q = ['.', '.'] := by
  rw [cleanStep.eq_def] at hq
  by_cases h1 : p = ['.']
  · rw [if_pos h1] at hq
    exact Or.inl hq
  · rw [if_neg h1] at hq
    by_cases h2 : p = ['.', '.']
    · rw [if_pos h2] at hq
      cases st with
      | nil =>
        dsimp only at hq
        cases abs with
        | false =>
          simp only [Bool.false_eq_true, if_false] at hq
          right; right; exact List.mem_singleton.mp hq
        | true => simp at hq
      | cons r rs =>
        dsimp only at hq
        by_cases h3 : r = ['.', '.']
        · rw [if_pos h3] at hq
          rcases List.mem_cons.mp hq with rfl | hq2
          · right; left; exact h2.symm ▸ rfl
          · exact Or.inl hq2
        · rw [if_neg h3] at hq
          exact Or.inl (List.mem_cons_of_mem r hq)
    · rw [if_neg h2] at hq
      rcases List.mem_cons.mp hq with rfl | hq2
      · right; left; rfl
      · exact Or.inl hq2

theorem mem_foldl_cleanStep (abs : Bool) (cs : List (List Char)) :
    ∀ st q, q ∈ cs.foldl (cleanStep abs) st → q ∈ st ∨ q ∈ cs ∨ q = ['.', '.'] := by
  induction cs with
  | nil => intro st q hq; exact Or.inl hq
  | cons p ps ih =>
    intro st q hq
    rw [List.foldl_cons] at hq
    rcases ih (cleanStep abs st p) q hq with h | h | h
    · rcases mem_cleanStep abs st p q h with h2 | h2 | h2
      · exact Or.inl h2
      · right; left; exact h2 ▸ List.mem_cons_self p ps
      · right; right; exact h2
    · right; left; exact List.mem_cons_of_mem p h
    · right; right; exact h

theorem mem_cleanComps (abs : Bool) (cs : List (List Char)) (q : List Char)
    (hq : q ∈ cleanComps abs cs) : q ∈ cs ∨ q = ['.', '.'] := by
  rw [cleanComps, List.mem_reverse] at hq
  rcases mem_foldl_cleanStep abs cs [] q hq with h | h | h
  · cases h
  · exact Or.inl h
  · exact Or.inr h

theorem mem_cleanComps_nice (abs : Bool) (s : String) (q : List Char)
    (hq : q ∈ cleanComps abs (comps s)) : NiceComp q := by
  rcases mem_cleanComps abs (comps s) q hq with h | h
  · exact mem_comps_nice s q h
  · subst h
    exact ⟨by simp, by simp⟩

theorem joinComps_cons_cons (p q : List Char) (rest : List (List Char)) :
    joinComps (p :: q :: rest) = p ++ '/' :: joinComps (q :: rest) := rfl

theorem mem_joinComps (cs : List (List Char)) (a : Char) (ha : a ∈ joinComps cs) :
    a = '/' ∨ ∃ p ∈ cs, a ∈ p := by
  induction cs with
  | nil => cases ha
  | cons p ps ih =>
    cases ps with
    | nil => right; exact ⟨p, List.mem_cons_self p [], ha⟩
    | cons q rest =>
      rw [joinComps_cons_cons, List.mem_append] at ha
      rcases ha with h | h
      · right; exact ⟨p, List.mem_cons_self p (q :: rest), h⟩
      · rcases List.mem_cons.mp h with rfl | h2
        · left; rfl
        · rcases ih h2 with h3 | ⟨r, hr, har⟩
          · left; exact h3
          · right; exact ⟨r, List.mem_cons_of_mem p hr, har⟩

theorem splitRaw_joinComps (cs : List (List Char)) (h : ∀ p ∈ cs, NiceComp p)
    (hne : cs ≠ []) : splitRaw (joinComps cs) = cs := by
  induction cs with
  | nil => exact absurd rfl hne
  | cons p ps ih =>
    cases ps with
    | nil => exact splitRaw_no_slash p (h p (List.mem_cons_self p [])).2
    | cons q rest =>
      rw [joinComps_cons_cons, splitRaw_append_slash,
        splitRaw_no_slash p (h p (List.mem_cons_self p (q :: rest))).2,
        ih (fun r hr => h r (List.mem_cons_of_mem p hr)) (by simp)]
      rfl

theorem comps_joinComps (cs : List (List Char)) (h : ∀ p ∈ cs, NiceComp p)
    (hne : cs ≠ []) : comps ⟨joinComps cs⟩ = cs := by
  rw [comps_mk, splitRaw_joinComps cs h hne]
  rw [List.filter_eq_self]
  intro p hp
  cases hpd : p with
  | nil => exact absurd hpd (h p hp).1
  | cons x xs => rfl

theorem comps_slash_cons (l : List Char) : comps ⟨'/' :: l⟩ = comps ⟨l⟩ := by
  rw [comps_mk, comps_mk, splitRaw, if_pos rfl]
  rfl

theorem comps_renderPath (abs : Bool) (cs : List (List Char))
    (h : ∀ p ∈ cs, NiceComp p) (hne : cs ≠ [] ∨ abs = true) :
    comps ⟨renderPath abs cs⟩ = cs := by
  cases abs with
  | true =>
    rw [renderPath, if_pos rfl, comps_slash_cons]
    by_cases hcs : cs = []
    · subst hcs; rfl
    · exact comps_joinComps cs h hcs
  | false =>
    have hcs : cs ≠ [] := by
      rcases hne with h1 | h1
      · exact h1
      · cases h1
    rw [renderPath, if_neg (by simp), if_neg hcs]
    exact comps_joinComps cs h hcs

theorem comps_pClean (s : String)
    (hne : cleanComps (isAbsData s.data) (comps s) ≠ [] ∨ isAbsData s.data = true) :
    comps (pClean s) = cleanComps (isAbsData s.data) (comps s) := by
  rw [pClean]
  exact comps_renderPath _ _ (fun q hq => mem_cleanComps_nice _ s q hq) hne

theorem comps_concat_plain (t : String) (b : List Char) (hb : PlainComp b) :
    comps (t ++ "/" ++ ⟨b⟩) = comps t ++ [b] := by
  rw [comps_append_slash, comps_singleton b ⟨hb.1, hb.2.1⟩]

theorem pBase_pClean_concat (t : String) (b : List Char) (hb : PlainComp b) :
    pBase (pClean (t ++ "/" ++ ⟨b⟩)) = ⟨b⟩ := by
  have h1 : comps (pClean (t ++ "/" ++ ⟨b⟩))
      = cleanComps (isAbsData (t ++ "/" ++ ⟨b⟩).data) (comps t) ++ [b] := by
    rw [comps_pClean _ ?hne]
    · rw [comps_concat_plain t b hb, cleanComps_concat_plain _ _ b hb]
    case hne =>
      left
      rw [comps_concat_plain t b hb, cleanComps_concat_plain _ _ b hb]
      simp
  rw [pBase, h1, List.getLast?_concat]


theorem string_mk_ne_empty (b : List Char) (hb : b ≠ []) : (⟨b⟩ : String) ≠ "" := by
  intro h
  exact hb (congrArg String.data h)

theorem pJoin_comps_concat (x : String) (b : List Char) (hb : PlainComp b) (hx : x ≠ "") :
    comps (pJoin x ⟨b⟩) = cleanComps (isAbsData x.data) (comps x) ++ [b] := by
  rw [pJoin, if_neg hx, if_neg (string_mk_ne_empty b hb.1)]
  have habs : isAbsData (x ++ "/" ++ ⟨b⟩).data = isAbsData x.data := by
    rw [String.data_append, String.data_append]
    cases hd : x.data with
    | nil => exact absurd (String.ext (hd.trans rfl)) hx
    | cons c cs => rw [List.cons_append, List.cons_append]; rfl
  rw [comps_pClean _ ?hne]
  case hne =>
    left
    rw [comps_concat_plain x b hb, cleanComps_concat_plain _ _ b hb]
    simp
  rw [comps_concat_plain x b hb, cleanComps_concat_plain _ _ b hb, habs]

theorem dropWhile_append_all {α : Type} (p : α → Bool) (l r : List α)
    (h : ∀ a ∈ l, p a = true) : (l ++ r).dropWhile p = r.dropWhile p := by
  induction l with
  | nil => rfl
  | cons x xs ih =>
    rw [List.cons_append, List.dropWhile_cons, h x (List.mem_cons_self x xs)]
    exact ih (fun a ha => h a (List.mem_cons_of_mem x ha))

theorem dropAfterLastSlash_concat (xs b : List Char) (hb : '/' ∉ b) :
    dropAfterLastSlash (xs ++ '/' :: b) = xs ++ ['/'] := by
  rw [dropAfterLastSlash, List.reverse_append, List.reverse_cons, List.append_assoc]
  rw [dropWhile_append_all _ b.reverse _ (by
    intro a ha
    have : a ∈ b := List.mem_reverse.mp ha
    simp only [decide_eq_true_eq]
    intro hcon
    exact hb (hcon ▸ this))]
  rw [List.singleton_append, List.dropWhile_cons]
  simp

theorem dropAfterLastSlash_no_slash (b : List Char) (hb : '/' ∉ b) :
    dropAfterLastSlash b = [] := by
  rw [dropAfterLastSlash]
  have : b.reverse.dropWhile (fun c => c ≠ '/') = [] := by
    rw [List.dropWhile_eq_nil_iff]
    intro a ha
    simp only [decide_eq_true_eq]
    intro hcon
    exact hb (hcon ▸ List.mem_reverse.mp ha)
  rw [this]
  rfl

theorem joinComps_concat (init : List (List Char)) (b : List Char) (hinit : init ≠ []) :
    joinComps (init ++ [b]) = joinComps init ++ '/' :: b := by
  induction init with
  | nil => exact absurd rfl hinit
  | cons p ps ih =>
    cases ps with
    | nil => rfl
    | cons q rest =>
      have h1 : (p :: q :: rest) ++ [b] = p :: ((q :: rest) ++ [b]) := rfl
      have h2 : (q :: rest) ++ [b] = q :: (rest ++ [b]) := rfl
      rw [h1, h2, joinComps_cons_cons, ← h2, ih (by simp), joinComps_cons_cons]
      simp

theorem joinComps_cons_ne_nil (p : List Char) (ps : List (List Char)) (hp : p ≠ []) :
    joinComps (p :: ps) ≠ [] := by
  cases ps with
  | nil => exact hp
  | cons q rest =>
    rw [joinComps_cons_cons]
    cases p with
    | nil => exact absurd rfl hp
    | cons c cs => simp

theorem renderPath_ne_nil (abs : Bool) (cs : List (List Char))
    (h : ∀ p ∈ cs, NiceComp p) : renderPath abs cs ≠ [] := by
  cases abs with
  | true => rw [renderPath, if_pos rfl]; simp
  | false =>
    rw [renderPath, if_neg (by simp)]
    cases cs with
    | nil => simp
    | cons p ps =>
      rw [if_neg (by simp)]
      exact joinComps_cons_ne_nil p ps (h p (List.mem_cons_self p ps)).1

theorem pClean_ne_empty (s : String) : pClean s ≠ "" := by
  rw [pClean]
  exact string_mk_ne_empty _
    (renderPath_ne_nil _ _ (fun q hq => mem_cleanComps_nice _ s q hq))

theorem pClean_all_plain (f : String) (h : ∀ p ∈ comps f, PlainComp p) :
    pClean f = ⟨renderPath (isAbsData f.data) (comps f)⟩ := by
  rw [pClean, cleanComps_all_plain _ _ h]

theorem comps_filter_keep (cs : List (List Char)) (h : ∀ p ∈ cs, p ≠ []) :
    cs.filter (fun p => !p.isEmpty) = cs := by
  rw [List.filter_eq_self]
  intro p hp
  cases hpd : p with
  | nil => exact absurd hpd (h p hp)
  | cons x xs => rfl

theorem comps_join_trailing_slash (init : List (List Char))
    (h : ∀ p ∈ init, NiceComp p) (hne : init ≠ []) :
    comps ⟨joinComps init ++ ['/']⟩ = init := by
  rw [comps_mk]
  have h1 : joinComps init ++ ['/'] = joinComps init ++ '/' :: [] := rfl
  rw [h1, splitRaw_append_slash, splitRaw_joinComps init h hne, List.filter_append]
  rw [comps_filter_keep init (fun p hp => (h p hp).1)]
  simp [splitRaw]

/-- The recomposition at the heart of `makeTar`: for a path whose
components all name real directory entries, `path.Join(path.Dir(p),
path.Base(p))` of the cleaned path has the same components as the
original path. -/
theorem comps_rejoin (f : String) (hplain : ∀ p ∈ comps f, PlainComp p)
    (hne : comps f ≠ []) :
    comps (pJoin (pDir (pClean f)) (pBase (pClean f))) = comps f := by
  rcases List.eq_nil_or_concat' (comps f) with hnil | ⟨init, b, hcs⟩
  · exact absurd hnil hne
  have hb : PlainComp b :=
    hplain b (by rw [hcs]; exact List.mem_append_right init (List.mem_singleton.mpr rfl))
  have hinit : ∀ p ∈ init, PlainComp p := fun p hp =>
    hplain p (by rw [hcs]; exact List.mem_append_left _ hp)
  have hinitn : ∀ p ∈ init, NiceComp p := fun p hp => ⟨(hinit p hp).1, (hinit p hp).2.1⟩
  have hclean : pClean f = ⟨renderPath (isAbsData f.data) (comps f)⟩ :=
    pClean_all_plain f hplain
  have hbase : pBase (pClean f) = ⟨b⟩ := by
    rw [hclean, pBase,
      comps_renderPath _ _ (fun p hp => ⟨(hplain p hp).1, (hplain p hp).2.1⟩) (Or.inl hne),
      hcs, List.getLast?_concat]
  rw [hbase]
  have hmain : ∀ x : String, x ≠ "" →
      cleanComps (isAbsData x.data) (comps x) = init →
      comps (pJoin x ⟨b⟩) = comps f := by
    intro x hx hcc
    rw [pJoin_comps_concat x b hb hx, hcc, hcs]
  have hxdir : pDir (pClean f)
      = pClean ⟨dropAfterLastSlash (renderPath (isAbsData f.data) (comps f))⟩ := by
    rw [hclean, pDir]
  cases habs : isAbsData f.data with
  | false =>
    rw [habs] at hxdir
    cases init with
    | nil =>
      have hrender : renderPath false (comps f) = b := by
        rw [hcs, List.nil_append, renderPath, if_neg (by simp), if_neg (by simp)]
        rfl
      have hd : dropAfterLastSlash (renderPath false (comps f)) = [] := by
        rw [hrender]
        exact dropAfterLastSlash_no_slash b hb.2.1
      rw [hxdir, hd]
      exact hmain (pClean ⟨[]⟩) (pClean_ne_empty _) (by decide)
    | cons p ps =>
      have hrender : renderPath false (comps f) = joinComps (p :: ps) ++ '/' :: b := by
        rw [hcs, renderPath, if_neg (by simp), if_neg (by simp),
          joinComps_concat (p :: ps) b (by simp)]
      have hd : dropAfterLastSlash (renderPath false (comps f))
          = joinComps (p :: ps) ++ ['/'] := by
        rw [hrender]
        exact dropAfterLastSlash_concat (joinComps (p :: ps)) b hb.2.1
      rw [hxdir, hd]
      have hcompsD : comps ⟨joinComps (p :: ps) ++ ['/']⟩ = p :: ps :=
        comps_join_trailing_slash (p :: ps) hinitn (by simp)
      have hcompsx : comps (pClean ⟨joinComps (p :: ps) ++ ['/']⟩) = p :: ps := by
        rw [comps_pClean _ ?hne2, hcompsD, cleanComps_all_plain _ _ hinit]
        case hne2 =>
          left
          rw [hcompsD, cleanComps_all_plain _ _ hinit]
          simp
      refine hmain _ (pClean_ne_empty _) ?_
      rw [hcompsx, cleanComps_all_plain _ _ hinit]
  | true =>
    rw [habs] at hxdir
    cases init with
    | nil =>
      have hrender : renderPath true (comps f) = '/' :: b := by
        rw [hcs, List.nil_append, renderPath, if_pos rfl]
        rfl
      have hd : dropAfterLastSlash (renderPath true (comps f)) = ['/'] := by
        rw [hrender]
        have := dropAfterLastSlash_concat [] b hb.2.1
        simpa using this
      rw [hxdir, hd]
      exact hmain (pClean ⟨['/']⟩) (pClean_ne_empty _) (by decide)
    | cons p ps =>
      have hrender : renderPath true (comps f)
          = ('/' :: joinComps (p :: ps)) ++ '/' :: b := by
        rw [hcs, renderPath, if_pos rfl, joinComps_concat (p :: ps) b (by simp)]
        rfl
      have hd : dropAfterLastSlash (renderPath true (comps f))
          = '/' :: (joinComps (p :: ps) ++ ['/']) := by
        rw [hrender, dropAfterLastSlash_concat ('/' :: joinComps (p :: ps)) b hb.2.1]
        rfl
      rw [hxdir, hd]
      have hcompsD : comps ⟨'/' :: (joinComps (p :: ps) ++ ['/'])⟩ = p :: ps := by
        rw [comps_slash_cons]
        exact comps_join_trailing_slash (p :: ps) hinitn (by simp)
      have hcompsx : comps (pClean ⟨'/' :: (joinComps (p :: ps) ++ ['/'])⟩) = p :: ps := by
        rw [comps_pClean _ ?hne3, hcompsD, cleanComps_all_plain _ _ hinit]
        case hne3 =>
          left
          rw [hcompsD, cleanComps_all_plain _ _ hinit]
          simp
      refine hmain _ (pClean_ne_empty _) ?_
      rw [hcompsx, cleanComps_all_plain _ _ hinit]


/-! ## Lemmas about filesystem resolution -/

theorem childLookup_pred (pred : List Char → Bool) (p : List Char)
    (ch : List (String × FNode)) (c : FNode)
    (hch : childrenNamesAll pred ch = true) (h : childLookup p ch = some c) :
    pred p = true ∧ c.namesAll pred = true := by
  induction ch with
  | nil => cases h
  | cons x rest ih =>
    rw [childrenNamesAll] at hch
    simp only [Bool.and_eq_true] at hch
    obtain ⟨⟨h1, h2⟩, h3⟩ := hch
    rw [childLookup] at h
    by_cases hx : x.1.data = p
    · rw [if_pos hx] at h
      rw [Option.some_inj] at h
      subst h
      exact ⟨hx ▸ h1, h2⟩
    · rw [if_neg hx] at h
      exact ih h3 h

theorem resolve_namesAll (pred : List Char → Bool) (ps : List (List Char)) (n m : FNode)
    (hn : n.namesAll pred = true) (h : resolve ps n = some m) :
    m.namesAll pred = true := by
  induction ps generalizing n with
  | nil =>
    rw [resolve, Option.some_inj] at h
    exact h ▸ hn
  | cons p ps ih =>
    cases n with
    | file sz => simp [resolve] at h
    | symlink t => simp [resolve] at h
    | dir ch =>
      rw [resolve] at h
      cases hcl : childLookup p ch with
      | none => rw [hcl] at h; exact Option.noConfusion h
      | some c =>
        rw [hcl] at h
        have hch : childrenNamesAll pred ch = true := by
          rw [FNode.namesAll] at hn; exact hn
        obtain ⟨hp, hc⟩ := childLookup_pred pred p ch c hch hcl
        exact ih c hc h

theorem resolve_plainComps (ps : List (List Char)) (n m : FNode)
    (hv : n.validB = true) (h : resolve ps n = some m) : ∀ p ∈ ps, PlainComp p := by
  induction ps generalizing n with
  | nil => intro p hp; cases hp
  | cons q qs ih =>
    intro p hp
    cases n with
    | file sz => simp [resolve] at h
    | symlink t => simp [resolve] at h
    | dir ch =>
      rw [resolve] at h
      cases hcl : childLookup q ch with
      | none => rw [hcl] at h; exact Option.noConfusion h
      | some c =>
        rw [hcl] at h
        have hch : childrenNamesAll validNameB ch = true := by
          rw [FNode.validB, FNode.namesAll] at hv; exact hv
        obtain ⟨hq, hc⟩ := childLookup_pred validNameB q ch c hch hcl
        rcases List.mem_cons.mp hp with rfl | hp2
        · exact of_decide_eq_true hq
        · exact ih c (show c.validB = true from hc) h p hp2

theorem comps_ne_nil_of_nondir (fs n : FNode) (f : String) (hroot : fs.isDirB = true)
    (h : resolve (comps f) fs = some n) (hnd : n.isDirB = false) : comps f ≠ [] := by
  intro hnil
  rw [hnil, resolve, Option.some_inj] at h
  rw [← h, hroot] at hnd
  cases hnd

/-! ### C8: single-file transfer -/

/-- C8: a push whose changed-file list holds exactly one entry that
exists and is not a directory is a single-file transfer: the archive
carries exactly one entry named by the file's base name, and the remote
unpack command is `tar xf - -C <targetPath>` with no `--strip`
argument. -/
theorem c8_single_file_transfer (fs : FNode) (localPath targetPath f : String) (n : FNode)
    (hroot : fs.isDirB = true) (hvalid : fs.validB = true)
    (hstat : lstat fs f = some n) (hndir : n.isDirB = false) :
    (∃ e : TarEntry, copyFileArchive fs localPath targetPath [f] = .streamed [e] ∧
      entryName e = pBase f) ∧
    copyFileCmdArr fs targetPath [f] = ["tar", "xf", "-", "-C", targetPath] := by
  rw [lstat] at hstat
  have hplain : ∀ p ∈ comps f, PlainComp p := resolve_plainComps (comps f) fs n hvalid hstat
  have hcne : comps f ≠ [] := comps_ne_nil_of_nondir fs n f hroot hstat hndir
  rcases List.eq_nil_or_concat' (comps f) with hnil | ⟨init, b, hcs⟩
  · exact absurd hnil hcne
  have hb : PlainComp b :=
    hplain b (by rw [hcs]; exact List.mem_append_right init (List.mem_singleton.mpr rfl))
  have hbasef : pBase f = ⟨b⟩ := by rw [pBase, hcs, List.getLast?_concat]
  have hsingle : isSingleFileTransfer fs [f] = true := by
    simp [isSingleFileTransfer, hstat, hndir]
  have hdest : pBase (pClean (targetPath ++ "/" ++ pBase f)) = pBase f := by
    rw [hbasef]
    exact pBase_pClean_concat targetPath b hb
  have hres : resolve (comps (pJoin (pDir (pClean f)) (pBase (pClean f)))) fs = some n := by
    rw [comps_rejoin f hplain hcne]
    exact hstat
  have hmk : makeTar fs f (targetPath ++ "/" ++ pBase f) []
      = Except.ok (recursiveTarAux n (pBase (pClean (targetPath ++ "/" ++ pBase f)))) := by
    rw [makeTar]
    simp only [List.isEmpty_nil, if_true]
    rw [recursiveTar, hres]
  have hentry : ∃ e : TarEntry,
      recursiveTarAux n (pBase (pClean (targetPath ++ "/" ++ pBase f))) = [e] ∧
      entryName e = pBase (pClean (targetPath ++ "/" ++ pBase f)) := by
    cases n with
    | file sz => exact ⟨.fileE _ sz, rfl, rfl⟩
    | symlink t => exact ⟨.linkE _ t, rfl, rfl⟩
    | dir ch => rw [FNode.isDirB] at hndir; cases hndir
  obtain ⟨e, he1, he2⟩ := hentry
  constructor
  · refine ⟨e, ?_, by rw [he2, hdest]⟩
    rw [copyFileArchive]
    simp only [hsingle, if_true]
    have hheadD : ([f].headD "") = f := rfl
    rw [hheadD, hmk, he1]
  · rw [copyFileCmdArr, if_pos hsingle]

theorem c8_witness :
    (FNode.dir [("work", FNode.dir [("b.txt", FNode.file 7)])]).isDirB = true ∧
    (FNode.dir [("work", FNode.dir [("b.txt", FNode.file 7)])]).validB = true ∧
    lstat (FNode.dir [("work", FNode.dir [("b.txt", FNode.file 7)])]) "/work/b.txt"
      = some (FNode.file 7) ∧
    (FNode.file 7).isDirB = false ∧
    ((∃ e : TarEntry,
        copyFileArchive (FNode.dir [("work", FNode.dir [("b.txt", FNode.file 7)])])
          "/local" "/target" ["/work/b.txt"] = .streamed [e] ∧
        entryName e = pBase "/work/b.txt") ∧
      copyFileCmdArr (FNode.dir [("work", FNode.dir [("b.txt", FNode.file 7)])])
        "/target" ["/work/b.txt"] = ["tar", "xf", "-", "-C", "/target"]) :=
  ⟨rfl, by decide, rfl, rfl,
    c8_single_file_transfer (FNode.dir [("work", FNode.dir [("b.txt", FNode.file 7)])])
      "/local" "/target" "/work/b.txt" (FNode.file 7) rfl (by decide) rfl rfl⟩


/-! ### C9: backslashes in archive entry names -/

/-- C9 (counterexample): the claim says no constructed archive entry
name contains a backslash for any host path convention, including
backslash-separated spellings.  A single-file push of the
Windows-spelled path `C:\dir\b.txt` — one name with no slash, so the
slash-based `path` functions treat it as a single component — produces
exactly one entry whose name is the full backslash-ridden string: the
only backslash normalization in the transport lives in the uncalled
per-file `tar` helper, not in `recursiveTar`. -/
theorem c9_backslash_entry_name :
    copyFileArchive (.dir [("C:\\dir\\b.txt", .file 3)]) "/tmp/x" "/opt/app-root/src"
        ["C:\\dir\\b.txt"]
      = .streamed [.fileE "C:\\dir\\b.txt" 3] ∧
    '\\' ∈ (entryName (TarEntry.fileE "C:\\dir\\b.txt" 3)).data := by
  constructor
  · rfl
  · decide

theorem mem_renderPath (abs : Bool) (cl : List (List Char)) (a : Char)
    (ha : a ∈ renderPath abs cl) : a = '/' ∨ a = '.' ∨ ∃ q ∈ cl, a ∈ q := by
  rw [renderPath] at ha
  cases abs with
  | true =>
    rw [if_pos rfl] at ha
    rcases List.mem_cons.mp ha with rfl | h
    · left; rfl
    · rcases mem_joinComps cl a h with h1 | h1
      · left; exact h1
      · right; right; exact h1
  | false =>
    rw [if_neg (by simp)] at ha
    by_cases hcl : cl = []
    · rw [if_pos hcl] at ha
      right; left
      exact List.mem_singleton.mp ha
    · rw [if_neg hcl] at ha
      rcases mem_joinComps cl a ha with h1 | h1
      · left; exact h1
      · right; right; exact h1

theorem nb_pClean (s : String) (h : '\\' ∉ s.data) : '\\' ∉ (pClean s).data := by
  intro hmem
  have hmem2 : '\\' ∈ renderPath (isAbsData s.data)
      (cleanComps (isAbsData s.data) (comps s)) := hmem
  rcases mem_renderPath _ _ _ hmem2 with h1 | h1 | ⟨q, hq, haq⟩
  · exact absurd h1 (by decide)
  · exact absurd h1 (by decide)
  · rcases mem_cleanComps _ _ q hq with h2 | h2
    · exact h (mem_comps_sub s q h2 _ haq)
    · subst h2
      exact absurd haq (by decide)

theorem nb_pBase (s : String) (h : '\\' ∉ s.data) : '\\' ∉ (pBase s).data := by
  rw [pBase]
  cases hgl : (comps s).getLast? with
  | some p =>
    intro hmem
    exact h (mem_comps_sub s p (List.mem_of_mem_getLast? hgl) _ hmem)
  | none =>
    by_cases hsl : s.data.contains '/' = true
    · rw [if_pos hsl]; decide
    · rw [if_neg hsl]; decide

theorem nb_pDir (s : String) (h : '\\' ∉ s.data) : '\\' ∉ (pDir s).data := by
  rw [pDir]
  apply nb_pClean
  intro hmem
  apply h
  rw [dropAfterLastSlash, List.mem_reverse] at hmem
  exact List.mem_reverse.mp ((List.dropWhile_sublist _).mem hmem)

theorem nb_pJoin (x y : String) (hx : '\\' ∉ x.data) (hy : '\\' ∉ y.data) :
    '\\' ∉ (pJoin x y).data := by
  rw [pJoin]
  by_cases h1 : x = ""
  · rw [if_pos h1]
    by_cases h2 : y = ""
    · rw [if_pos h2]; decide
    · rw [if_neg h2]; exact nb_pClean y hy
  · rw [if_neg h1]
    by_cases h2 : y = ""
    · rw [if_pos h2]; exact nb_pClean x hx
    · rw [if_neg h2]
      apply nb_pClean
      intro hmem
      rw [String.data_append, String.data_append, List.append_assoc,
        List.mem_append] at hmem
      rcases hmem with hm | hm
      · exact hx hm
      · rw [List.mem_append] at hm
        rcases hm with hm | hm
        · exact absurd hm (by decide)
        · exact hy hm

mutual
theorem recursiveTarAux_nb (n : FNode) (d : String)
    (hn : n.namesAll nbB = true) (hd : '\\' ∉ d.data) :
    ∀ e ∈ recursiveTarAux n d, '\\' ∉ (entryName e).data := by
  match n with
  | .file sz =>
    intro e he
    rw [recursiveTarAux, List.mem_singleton] at he
    subst he
    exact hd
  | .symlink t =>
    intro e he
    rw [recursiveTarAux, List.mem_singleton] at he
    subst he
    exact hd
  | .dir [] =>
    intro e he
    rw [recursiveTarAux, List.mem_singleton] at he
    subst he
    exact hd
  | .dir (c :: cs) =>
    intro e he
    rw [recursiveTarAux] at he
    exact recursiveTarChildren_nb (c :: cs) d
      (by rw [FNode.namesAll] at hn; exact hn) hd e he

theorem recursiveTarChildren_nb (ch : List (String × FNode)) (d : String)
    (hch : childrenNamesAll nbB ch = true) (hd : '\\' ∉ d.data) :
    ∀ e ∈ recursiveTarChildren ch d, '\\' ∉ (entryName e).data := by
  match ch with
  | [] =>
    intro e he
    rw [recursiveTarChildren] at he
    cases he
  | c :: rest =>
    intro e he
    rw [recursiveTarChildren, List.mem_append] at he
    rw [childrenNamesAll] at hch
    simp only [Bool.and_eq_true] at hch
    obtain ⟨⟨h1, h2⟩, h3⟩ := hch
    rcases he with he | he
    · have hname : '\\' ∉ c.1.data := of_decide_eq_true h1
      exact recursiveTarAux_nb c.2 (pJoin d c.1) h2 (nb_pJoin d c.1 hd hname) e he
    · exact recursiveTarChildren_nb rest d h3 hd e he
end


theorem recursiveTar_nb (fs : FNode) (sb sf db df : String) (entries : List TarEntry)
    (hfs : fs.namesAll nbB = true) (hdf : '\\' ∉ df.data)
    (hres : recursiveTar fs sb sf db df = .ok entries) :
    ∀ e ∈ entries, '\\' ∉ (entryName e).data := by
  rw [recursiveTar] at hres
  cases hr : resolve (comps (pJoin sb sf)) fs with
  | none => rw [hr] at hres; exact Except.noConfusion hres
  | some n =>
    rw [hr] at hres
    have hes : recursiveTarAux n df = entries := by injection hres
    exact hes ▸ recursiveTarAux_nb n df (resolve_namesAll nbB _ fs n hfs hr) hdf

theorem makeTarLoop_nb (fs : FNode) (sp dp : String) (files : List String)
    (entries : List TarEntry) (hfs : fs.namesAll nbB = true)
    (hdf : '\\' ∉ (pBase dp).data)
    (hres : makeTarLoop fs sp dp files = .ok entries) :
    ∀ e ∈ entries, '\\' ∉ (entryName e).data := by
  induction files with
  | nil =>
    rw [makeTarLoop] at hres
    have : ([] : List TarEntry) = entries := by injection hres
    subst this
    intro e he
    cases he
  | cons f rest ih =>
    rw [makeTarLoop] at hres
    by_cases hex : checkFileExist fs f = true
    · rw [if_pos hex] at hres
      exact recursiveTar_nb fs _ _ _ _ entries hfs hdf hres
    · rw [if_neg hex] at hres
      exact ih hres

theorem makeTar_nb (fs : FNode) (sp dp : String) (files : List String)
    (entries : List TarEntry) (hfs : fs.namesAll nbB = true)
    (_hsp : '\\' ∉ sp.data) (hdp : '\\' ∉ dp.data)
    (hres : makeTar fs sp dp files = .ok entries) :
    ∀ e ∈ entries, '\\' ∉ (entryName e).data := by
  simp only [makeTar] at hres
  by_cases hf : files.isEmpty = true
  · rw [if_pos hf] at hres
    exact recursiveTar_nb fs _ _ _ _ entries hfs (nb_pBase _ (nb_pClean dp hdp)) hres
  · rw [if_neg hf] at hres
    exact makeTarLoop_nb fs _ _ files entries hfs (nb_pBase _ (nb_pClean dp hdp)) hres

/-- C9 (amended): whenever the local paths, the changed-file names and
every file-tree name are spelled without backslashes — i.e. with the
slash convention the `path` package assumes — no archive entry name
built by `CopyFile`/`makeTar`/`recursiveTar` contains a backslash.  (The
per-file `tar` helper that rewrites backslashes to slashes is never
called by the transport.) -/
theorem c9_amended_no_backslash_for_slash_paths (fs : FNode)
    (localPath targetPath : String) (copyFiles : List String) (entries : List TarEntry)
    (hfs : fs.namesAll nbB = true)
    (hl : '\\' ∉ localPath.data) (ht : '\\' ∉ targetPath.data)
    (hc : ∀ f ∈ copyFiles, '\\' ∉ f.data)
    (hres : copyFileArchive fs localPath targetPath copyFiles = .streamed entries) :
    ∀ e ∈ entries, '\\' ∉ (entryName e).data := by
  have hhead : '\\' ∉ (copyFiles.headD "").data := by
    cases copyFiles with
    | nil => decide
    | cons f rest => exact hc f (List.mem_cons_self f rest)
  simp only [copyFileArchive] at hres
  by_cases hs : isSingleFileTransfer fs copyFiles = true
  · rw [if_pos hs] at hres
    cases hmt : makeTar fs (copyFiles.headD "")
        (targetPath ++ "/" ++ pBase (copyFiles.headD "")) [] with
    | error msg => rw [hmt] at hres; exact ArchiveOutcome.noConfusion hres
    | ok es =>
      rw [hmt] at hres
      have hes : es = entries := by injection hres
      subst hes
      refine makeTar_nb fs _ _ [] es hfs hhead ?_ hmt
      intro hmem
      rw [String.data_append, String.data_append, List.append_assoc,
        List.mem_append] at hmem
      rcases hmem with hm | hm
      · exact ht hm
      · rw [List.mem_append] at hm
        rcases hm with hm | hm
        · exact absurd hm (by decide)
        · exact nb_pBase _ hhead hm
  · rw [if_neg hs] at hres
    cases hmt : makeTar fs localPath (pJoin targetPath (pBase localPath)) copyFiles with
    | error msg => rw [hmt] at hres; exact ArchiveOutcome.noConfusion hres
    | ok es =>
      rw [hmt] at hres
      have hes : es = entries := by injection hres
      subst hes
      exact makeTar_nb fs _ _ copyFiles es hfs hl
        (nb_pJoin targetPath (pBase localPath) ht (nb_pBase _ hl)) hmt

theorem c9_amended_witness :
    ((FNode.dir [("work", FNode.dir [("b.txt", FNode.file 7)])]).namesAll nbB = true) ∧
    ('\\' ∉ ("/work" : String).data) ∧
    ('\\' ∉ ("/target" : String).data) ∧
    (∀ f ∈ ["/work/b.txt"], '\\' ∉ f.data) ∧
    (copyFileArchive (FNode.dir [("work", FNode.dir [("b.txt", FNode.file 7)])])
        "/work" "/target" ["/work/b.txt"] = .streamed [TarEntry.fileE "b.txt" 7]) ∧
    (∀ e ∈ [TarEntry.fileE "b.txt" 7], '\\' ∉ (entryName e).data) :=
  ⟨by decide, by decide, by decide, by decide, rfl,
    c9_amended_no_backslash_for_slash_paths
      (FNode.dir [("work", FNode.dir [("b.txt", FNode.file 7)])])
      "/work" "/target" ["/work/b.txt"] [TarEntry.fileE "b.txt" 7]
      (by decide) (by decide) (by decide) (by decide) rfl⟩

end Odo
